import Mathlib

/-!
# IMU/GPS error-state Kalman filter

A shallow embedding of `src/imu_gps_fusion.cpp` (class `Fusion::ImuGpsFusion`).

Conventions of the embedding.

* `double` is modelled by an arbitrary linearly ordered field `K` (for instance `ℚ`, where
  every definition below evaluates, or `ℝ`).  Rounding is not modelled; every statement is about
  the exact arithmetic the code denotes.  Division by zero follows the field convention
  `x / 0 = 0`, where IEEE arithmetic gives an infinity or a NaN; the statements about the
  gain of `gpsUpdate` therefore say that the determinant it divides by is not zero.
* The object is the record `ImuGpsFusion`; a member function is a function from the record (and
  its arguments) to the updated record.  Statements of a member function are applied in source
  order.
* `assert` is modelled as process abort: `Outcome.abort` carries the object as it was when the
  assertion failed.
* Functions the source calls but does not define are fields of `Deps`: the helpers of
  `util.hpp`, the geodetic converter, and the two numerical primitives of Eigen that are not
  field operations (square root and the singular vector used by `FromTwoVectors`).
* Eigen operations that are field arithmetic (quaternion product, quaternion to rotation matrix,
  rotation of a vector, fixed-size 3×3 inverse, `normalized`, `FromTwoVectors`) are written out
  following Eigen's implementation.
-/

namespace Fusion

open Matrix

/-- A 3-vector (`Eigen::Vector3d`). -/
abbrev Vec3 (K : Type) := Fin 3 → K

/-- A 3×3 matrix (`Eigen::Matrix3d`). -/
abbrev Mat3 (K : Type) := Matrix (Fin 3) (Fin 3) K

/-- A quaternion with Eigen's coefficient names (`Eigen::Quaterniond`). -/
structure Quat (K : Type) where
  w : K
  x : K
  y : K
  z : K

/-- An inertial sample (`ImuData<double>`): timestamp, specific force, angular rate. -/
structure ImuData (K : Type) where
  stamp : K
  acc : Vec3 K
  gyr : Vec3 K

/-- A position fix (`GpsData<double>`): timestamp, geodetic position, 3×3 covariance. -/
structure GpsData (K : Type) where
  stamp : K
  data : Vec3 K
  cov : Mat3 K

/-- The filter state (`State<double>`), fields in the order the constructor sets them. -/
structure State (K : Type) where
  p : Vec3 K
  q : Quat K
  v : Vec3 K
  a_b : Vec3 K
  w_b : Vec3 K

/-- The data members of `ImuGpsFusion`. -/
structure ImuGpsFusion (K : Type) where
  Fi_ : Matrix (Fin 15) (Fin 12) K
  Hx_ : Matrix (Fin 3) (Fin 16) K
  no_state_ : State K
  ac_state_ : State K
  P_ : Matrix (Fin 15) (Fin 15) K
  g_ : Vec3 K
  Fx_ : Matrix (Fin 15) (Fin 15) K
  Qi_ : Matrix (Fin 12) (Fin 12) K
  H_ : Matrix (Fin 3) (Fin 15) K
  V_ : Mat3 K
  sigma_an_2_ : K
  sigma_wn_2_ : K
  sigma_aw_2_ : K
  sigma_ww_2_ : K
  ref_lati_ : K
  ref_long_ : K
  ref_alti_ : K

/-- Functions called by the source and defined outside it. -/
structure Deps (K : Type) where
  /-- The scalar square root (`std::sqrt`). -/
  sqrt : K → K
  /-- The third right-singular vector of the 2×3 matrix with rows `v0`, `v1`
  (`JacobiSVD(...).matrixV().col(2)` inside Eigen's `FromTwoVectors`). -/
  svdAxis : Vec3 K → Vec3 K → Vec3 K
  /-- The helper `getQuaFromAA` of `util.hpp`: rotation vector to quaternion. -/
  getQuaFromAA : Vec3 K → Quat K
  /-- The helper `getRotFromAA` of `util.hpp`: rotation vector to rotation matrix. -/
  getRotFromAA : Vec3 K → Mat3 K
  /-- The helper `vectorToSkewSymmetric` of `util.hpp`. -/
  vectorToSkewSymmetric : Vec3 K → Mat3 K
  /-- The geodetic converter `gps_converter_.lla2enu(enu, lla, ref)`, as a function of `lla`
  and `ref` returning `enu`. -/
  lla2enu : Vec3 K → Vec3 K → Vec3 K

/-- The result of a member function that may hit an `assert`. -/
inductive Outcome (α : Type) where
  | ok (a : α) : Outcome α
  | abort (a : α) : Outcome α

section Eigen

variable {K : Type} [LinearOrderedField K]

/-- The dot product of two 3-vectors. -/
def dot (a b : Vec3 K) : K := a 0 * b 0 + a 1 * b 1 + a 2 * b 2

/-- The cross product of two 3-vectors. -/
def cross (a b : Vec3 K) : Vec3 K :=
  ![a 1 * b 2 - a 2 * b 1, a 2 * b 0 - a 0 * b 2, a 0 * b 1 - a 1 * b 0]

/-- Eigen's `normalized()`: divide by the norm when the squared norm is positive. -/
def normalized (sqrt : K → K) (a : Vec3 K) : Vec3 K :=
  let z := dot a a
  if 0 < z then fun i => a i / sqrt z else a

/-- The identity quaternion (`setIdentity`). -/
def Quat.identity : Quat K := ⟨1, 0, 0, 0⟩

/-- The squared norm of a quaternion (`squaredNorm`). -/
def Quat.normSq (q : Quat K) : K := q.w * q.w + q.x * q.x + q.y * q.y + q.z * q.z

/-- The quaternion product `a * b` (Hamilton product, as in Eigen). -/
def Quat.mul (a b : Quat K) : Quat K :=
  ⟨a.w * b.w - a.x * b.x - a.y * b.y - a.z * b.z,
   a.w * b.x + a.x * b.w + a.y * b.z - a.z * b.y,
   a.w * b.y + a.y * b.w + a.z * b.x - a.x * b.z,
   a.w * b.z + a.z * b.w + a.x * b.y - a.y * b.x⟩

/-- The vector part of a quaternion (`vec()`). -/
def Quat.vec (q : Quat K) : Vec3 K := ![q.x, q.y, q.z]

/-- Eigen's `toRotationMatrix`, used by `Eigen::Matrix3d R(q)`. -/
def Quat.toRotationMatrix (q : Quat K) : Mat3 K :=
  let tx := 2 * q.x
  let ty := 2 * q.y
  let tz := 2 * q.z
  let twx := tx * q.w
  let twy := ty * q.w
  let twz := tz * q.w
  let txx := tx * q.x
  let txy := ty * q.x
  let txz := tz * q.x
  let tyy := ty * q.y
  let tyz := tz * q.y
  let tzz := tz * q.z
  !![1 - (tyy + tzz), txy - twz, txz + twy;
     txy + twz, 1 - (txx + tzz), tyz - twx;
     txz - twy, tyz + twx, 1 - (txx + tyy)]

/-- Eigen's `q * v` for a quaternion and a vector (`_transformVector`). -/
def Quat.rotate (q : Quat K) (v : Vec3 K) : Vec3 K :=
  let uv := cross q.vec v
  let uv2 : Vec3 K := fun i => uv i + uv i
  let t := cross q.vec uv2
  fun i => v i + q.w * uv2 i + t i

/-- Eigen's `NumTraits<double>::dummy_precision()`. -/
def dummy_precision : K := 1 / 1000000000000

/-- Eigen's `Quaternion::FromTwoVectors(a, b)`. -/
def fromTwoVectors (d : Deps K) (a b : Vec3 K) : Quat K :=
  let v0 := normalized d.sqrt a
  let v1 := normalized d.sqrt b
  let c := dot v1 v0
  if c < -1 + dummy_precision then
    let c1 := max c (-1)
    let axis := d.svdAxis v0 v1
    let w2 := (1 + c1) * (1 / 2)
    let s := d.sqrt (1 - w2)
    ⟨d.sqrt w2, axis 0 * s, axis 1 * s, axis 2 * s⟩
  else
    let axis := cross v0 v1
    let s := d.sqrt ((1 + c) * 2)
    let invs := 1 / s
    ⟨s * (1 / 2), axis 0 * invs, axis 1 * invs, axis 2 * invs⟩

/-- Eigen's fixed-size 3×3 `inverse()`: the cofactor matrix times the reciprocal of the
determinant, the determinant being expanded along the first column.  It agrees with the code
where the determinant is not zero; at determinant zero the code divides by zero, which exact
arithmetic does not represent, so statements about the gain carry the hypothesis that the
determinant is not zero. -/
def inverse3 (m : Mat3 K) : Mat3 K :=
  let c00 := m 1 1 * m 2 2 - m 1 2 * m 2 1
  let c10 := m 0 2 * m 2 1 - m 0 1 * m 2 2
  let c20 := m 0 1 * m 1 2 - m 0 2 * m 1 1
  let det := c00 * m 0 0 + c10 * m 1 0 + c20 * m 2 0
  let invdet := 1 / det
  !![c00 * invdet, c10 * invdet, c20 * invdet;
     (m 1 2 * m 2 0 - m 1 0 * m 2 2) * invdet, (m 0 0 * m 2 2 - m 0 2 * m 2 0) * invdet,
       (m 0 2 * m 1 0 - m 0 0 * m 1 2) * invdet;
     (m 1 0 * m 2 1 - m 1 1 * m 2 0) * invdet, (m 0 1 * m 2 0 - m 0 0 * m 2 1) * invdet,
       (m 0 0 * m 1 1 - m 0 1 * m 1 0) * invdet]

/-- Assignment to a fixed-size block: `M.block<p, q>(i, j) = B`. -/
def setBlock {m n : ℕ} (p q : ℕ) (M : Matrix (Fin m) (Fin n) K) (i j : ℕ)
    (B : Matrix (Fin p) (Fin q) K) : Matrix (Fin m) (Fin n) K :=
  fun r c =>
    if h : (i ≤ r.val ∧ r.val < i + p) ∧ (j ≤ c.val ∧ c.val < j + q) then
      B ⟨r.val - i, by omega⟩ ⟨c.val - j, by omega⟩
    else M r c

/-- In-place scaling of a fixed-size block: `M.block<p, q>(i, j) *= s`. -/
def scaleBlock {m n : ℕ} (p q : ℕ) (M : Matrix (Fin m) (Fin n) K) (i j : ℕ) (s : K) :
    Matrix (Fin m) (Fin n) K :=
  fun r c =>
    if (i ≤ r.val ∧ r.val < i + p) ∧ (j ≤ c.val ∧ c.val < j + q) then M r c * s else M r c

end Eigen

section Filter

variable {K : Type} [LinearOrderedField K]

/-- The constructor `ImuGpsFusion::ImuGpsFusion()`.  The argument stands for the object before
the constructor body runs: the members the body does not assign keep whatever they hold. -/
def ImuGpsFusion.construct (u : ImuGpsFusion K) : ImuGpsFusion K :=
  let f1 := { u with Fi_ := 0 }
  let f2 := { f1 with Fi_ := setBlock 12 12 f1.Fi_ 3 0 (1 : Matrix (Fin 12) (Fin 12) K) }
  let f3 := { f2 with Hx_ := 0 }
  let f4 := { f3 with Hx_ := setBlock 3 3 f3.Hx_ 0 0 (1 : Mat3 K) }
  let s : State K :=
    { p := 0, q := Quat.identity, v := 0, a_b := 0, w_b := 0 }
  let f5 := { f4 with no_state_ := s }
  let f6 := { f5 with ac_state_ := f5.no_state_ }
  let f7 := { f6 with P_ := 0 }
  { f7 with g_ := ![0, 0, -(981 / 100)] }

/-- The sum of a batch of vectors, accumulated from zero as in the loop of `imuInit`. -/
def sumVec (l : List (Vec3 K)) : Vec3 K := l.foldl (fun t a => t + a) 0

/-- `ImuGpsFusion::imuInit` (the console output is omitted). -/
def ImuGpsFusion.imuInit (d : Deps K) (f : ImuGpsFusion K) (imu_datas : List (ImuData K)) :
    ImuGpsFusion K :=
  let num : ℕ := imu_datas.length
  let total_acc := sumVec (imu_datas.map ImuData.acc)
  let total_gyr := sumVec (imu_datas.map ImuData.gyr)
  let mean_acc : Vec3 K := fun i => total_acc i / (num : K)
  let mean_gyr : Vec3 K := fun i => total_gyr i / (num : K)
  let s1 := { f.no_state_ with w_b := mean_gyr }
  let s2 := { s1 with q := fromTwoVectors d (-f.g_) mean_acc }
  let s3 := { s2 with a_b := s2.q.rotate f.g_ + mean_acc }
  { f with no_state_ := s3, ac_state_ := s3 }

/-- `ImuGpsFusion::cfgImuVar`: the four values are stored as given. -/
def ImuGpsFusion.cfgImuVar (f : ImuGpsFusion K) (sigma_an sigma_wn sigma_aw sigma_ww : K) :
    ImuGpsFusion K :=
  { f with sigma_an_2_ := sigma_an, sigma_wn_2_ := sigma_wn, sigma_aw_2_ := sigma_aw,
           sigma_ww_2_ := sigma_ww }

/-- `ImuGpsFusion::cfgRefGps`. -/
def ImuGpsFusion.cfgRefGps (f : ImuGpsFusion K) (latitude longitute altitude : K) :
    ImuGpsFusion K :=
  { f with ref_lati_ := latitude, ref_long_ := longitute, ref_alti_ := altitude }

/-- `ImuGpsFusion::updateNominalState`. -/
def ImuGpsFusion.updateNominalState (d : Deps K) (f : ImuGpsFusion K)
    (last_imu_data imu_data : ImuData K) : ImuGpsFusion K :=
  let dt := imu_data.stamp - last_imu_data.stamp
  let imu_acc : Vec3 K := (1 / 2 : K) • (imu_data.acc + last_imu_data.acc)
  let imu_gyr : Vec3 K := (1 / 2 : K) • (imu_data.gyr + last_imu_data.gyr)
  let R := f.no_state_.q.toRotationMatrix
  let s1 := { f.no_state_ with
    p := f.no_state_.p + dt • f.no_state_.v
      + dt • (dt • ((1 / 2 : K) • (R.mulVec (imu_acc - f.no_state_.a_b) + f.g_))) }
  let s2 := { s1 with v := s1.v + dt • (R.mulVec (imu_acc - s1.a_b) + f.g_) }
  let q_v : Vec3 K := dt • (imu_gyr - s2.w_b)
  let s3 := { s2 with q := s2.q.mul (d.getQuaFromAA q_v) }
  { f with no_state_ := s3 }

/-- `ImuGpsFusion::calcF`. -/
def ImuGpsFusion.calcF (d : Deps K) (f : ImuGpsFusion K) (imu_data : ImuData K) (dt : K) :
    ImuGpsFusion K :=
  let F0 : Matrix (Fin 15) (Fin 15) K := 1
  let F1 := setBlock 3 3 F0 0 3 (dt • (1 : Mat3 K))
  let R := f.no_state_.q.toRotationMatrix
  let F2 := setBlock 3 3 F1 3 6
    (dt • (-R * d.vectorToSkewSymmetric (imu_data.acc - f.no_state_.a_b)))
  let F3 := setBlock 3 3 F2 3 9 (dt • (-R))
  let F4 := setBlock 3 3 F3 6 6 (d.getRotFromAA (dt • (imu_data.gyr - f.no_state_.w_b)))
  let F5 := setBlock 3 3 F4 6 12 (dt • (-(1 : Mat3 K)))
  { f with Fx_ := F5 }

/-- `ImuGpsFusion::updateQ`. -/
def ImuGpsFusion.updateQ (f : ImuGpsFusion K) (dt : K) : ImuGpsFusion K :=
  let Q0 : Matrix (Fin 12) (Fin 12) K := 1
  let Q1 := scaleBlock 3 3 Q0 0 0 (f.sigma_an_2_ * dt * dt)
  let Q2 := scaleBlock 3 3 Q1 3 3 (f.sigma_wn_2_ * dt * dt)
  let Q3 := scaleBlock 3 3 Q2 6 6 (f.sigma_aw_2_ * dt)
  let Q4 := scaleBlock 3 3 Q3 9 9 (f.sigma_ww_2_ * dt)
  { f with Qi_ := Q4 }

/-- `ImuGpsFusion::imuPredict`. -/
def ImuGpsFusion.imuPredict (d : Deps K) (f : ImuGpsFusion K)
    (last_imu_data imu_data : ImuData K) : ImuGpsFusion K :=
  let dt := imu_data.stamp - last_imu_data.stamp
  let f1 := f.updateNominalState d last_imu_data imu_data
  let f2 := f1.calcF d imu_data dt
  let f3 := f2.updateQ dt
  { f3 with P_ := f3.Fx_ * f3.P_ * f3.Fx_ᵀ + f3.Fi_ * f3.Qi_ * f3.Fi_ᵀ }

/-- `ImuGpsFusion::updateH`. -/
def ImuGpsFusion.updateH (f : ImuGpsFusion K) : ImuGpsFusion K :=
  let X0 : Matrix (Fin 16) (Fin 15) K := 0
  let X1 := setBlock 6 6 X0 0 0 (1 : Matrix (Fin 6) (Fin 6) K)
  let X2 := setBlock 6 6 X1 10 9 (1 : Matrix (Fin 6) (Fin 6) K)
  let q := f.no_state_.q
  let X3 := setBlock 4 3 X2 6 6
    !![-q.x, -q.y, -q.z;
       q.w, -q.z, q.y;
       q.z, q.w, -q.x;
       -q.y, q.x, q.w]
  let X4 := scaleBlock 4 3 X3 6 6 (1 / 2)
  { f with H_ := f.Hx_ * X4 }

/-- `ImuGpsFusion::updateV`. -/
def ImuGpsFusion.updateV (f : ImuGpsFusion K) (gps_data : GpsData K) : ImuGpsFusion K :=
  { f with V_ := gps_data.cov }

/-- The predict loop of `gpsUpdate`: `imuPredict(*(it - 1), *it)` for every `it` from the second
element on. -/
def ImuGpsFusion.predictLoop (d : Deps K) (f : ImuGpsFusion K) :
    List (ImuData K) → ImuGpsFusion K
  | a :: b :: rest => (f.imuPredict d a b).predictLoop d (b :: rest)
  | _ => f

/-- The slice `dX.block<3, 1>(i, 0)` of the 15-dimensional correction. -/
def slot (dX : Fin 15 → K) (i : ℕ) (h : i + 3 ≤ 15) : Vec3 K :=
  fun k => dX ⟨i + k.val, by omega⟩

/-- The correction stage of `gpsUpdate` (source lines 157-177), after the predict loop. -/
def ImuGpsFusion.correct (d : Deps K) (f : ImuGpsFusion K) (gps_data : GpsData K) :
    ImuGpsFusion K :=
  let lla : Vec3 K := ![gps_data.data 0, gps_data.data 1, gps_data.data 2]
  let ref : Vec3 K := ![f.ref_lati_, f.ref_long_, f.ref_alti_]
  let enu := d.lla2enu lla ref
  let f1 := f.updateH
  let f2 := f1.updateV gps_data
  let Kg : Matrix (Fin 15) (Fin 3) K :=
    f2.P_ * f2.H_ᵀ * inverse3 (f2.H_ * f2.P_ * f2.H_ᵀ + f2.V_)
  let dX : Fin 15 → K := Kg.mulVec (![enu 0, enu 1, enu 2] - f2.no_state_.p)
  let I_KH : Matrix (Fin 15) (Fin 15) K := 1 - Kg * f2.H_
  let f3 := { f2 with P_ := I_KH * f2.P_ * I_KH ᵀ + Kg * f2.V_ * Kg ᵀ }
  let a1 := { f3.ac_state_ with p := f3.no_state_.p + slot dX 0 (by omega) }
  let a2 := { a1 with v := f3.no_state_.v + slot dX 3 (by omega) }
  let a3 := { a2 with q := f3.no_state_.q.mul (d.getQuaFromAA (slot dX 6 (by omega))) }
  let a4 := { a3 with a_b := f3.no_state_.a_b + slot dX 9 (by omega) }
  let a5 := { a4 with w_b := f3.no_state_.w_b + slot dX 12 (by omega) }
  let f4 := { f3 with ac_state_ := a5 }
  { f4 with no_state_ := f4.ac_state_ }

/-- `ImuGpsFusion::gpsUpdate`: the assertion, the predict loop, the correction. -/
def ImuGpsFusion.gpsUpdate (d : Deps K) (f : ImuGpsFusion K) (gps_data : GpsData K)
    (imu_datas : List (ImuData K)) : Outcome (ImuGpsFusion K) :=
  if imu_datas.length > 2 then
    Outcome.ok ((f.predictLoop d imu_datas).correct d gps_data)
  else
    Outcome.abort f

/-- `ImuGpsFusion::recoverState`. -/
def ImuGpsFusion.recoverState (f : ImuGpsFusion K) (last_updated_state : State K) :
    ImuGpsFusion K :=
  { f with ac_state_ := last_updated_state, no_state_ := last_updated_state }

/-- `ImuGpsFusion::getState`. -/
def ImuGpsFusion.getState (f : ImuGpsFusion K) : State K := f.ac_state_

/-- `ImuGpsFusion::getNominalState`. -/
def ImuGpsFusion.getNominalState (f : ImuGpsFusion K) : State K := f.no_state_

/-- Modelled from the spec: `getQuaFromAA` of `util.hpp`, which is not part of the source, is
the exponential map from rotation vectors to orientation quaternions; its values have unit
norm. -/
def ExpUnit (d : Deps K) : Prop :=
  ∀ v, (d.getQuaFromAA v).normSq = 1

/-- The innovation covariance `H·P·Hᵗ + V` that `gpsUpdate` inverts (source line 167). -/
def ImuGpsFusion.innovationCov (d : Deps K) (f : ImuGpsFusion K) (gps_data : GpsData K)
    (imu_datas : List (ImuData K)) : Mat3 K :=
  let fp := f.predictLoop d imu_datas
  fp.updateH.H_ * fp.P_ * fp.updateH.H_ᵀ + gps_data.cov

/-- The square root is exact on non-negative arguments: it returns the non-negative number
whose square is the argument. -/
def SqrtExact (d : Deps K) : Prop :=
  ∀ x, 0 ≤ x → 0 ≤ d.sqrt x ∧ d.sqrt x * d.sqrt x = x

/-- The square root is exact on squares of non-negative numbers (as `Rat.sqrt` is). -/
def SqrtOfSquares (d : Deps K) : Prop :=
  ∀ x, 0 ≤ x → d.sqrt (x * x) = x

/-- What the singular value decomposition fixes about the singular vector that
`FromTwoVectors(a, b)` uses in its nearly-opposite branch: it is a unit vector orthogonal to both
normalized inputs.  Its sign is left open. -/
def SvdAxisNull (d : Deps K) (a b : Vec3 K) : Prop :=
  let v0 := normalized d.sqrt a
  let v1 := normalized d.sqrt b
  let n := d.svdAxis v0 v1
  dot v1 v0 < -1 + dummy_precision → dot n v0 = 0 ∧ dot n v1 = 0 ∧ dot n n = 1

/-- The inputs of `FromTwoVectors(a, b)` are nearly but not exactly opposite: the cosine of their
angle is below `−1 + dummy_precision`, so that the nearly-opposite branch is taken, and is not
`−1`. -/
def NearlyOpposite (d : Deps K) (a b : Vec3 K) : Prop :=
  dot (normalized d.sqrt b) (normalized d.sqrt a) < -1 + dummy_precision
    ∧ dot (normalized d.sqrt b) (normalized d.sqrt a) ≠ -1

/-- The part of the singular value decomposition's contract that the norm of
`FromTwoVectors(a, b)` rests on in its nearly-opposite branch: the singular vector is a unit
vector. -/
def SvdAxisUnit (d : Deps K) (a b : Vec3 K) : Prop :=
  let v0 := normalized d.sqrt a
  let v1 := normalized d.sqrt b
  let n := d.svdAxis v0 v1
  dot v1 v0 < -1 + dummy_precision → dot n n = 1

/-- The arithmetic mean of a batch of vectors, componentwise. -/
def mean (l : List (Vec3 K)) : Vec3 K :=
  fun i => (l.map (fun v => v i)).sum / (l.length : K)

/-- Read access to a fixed-size block: `M.block<3, 3>(i, j)`. -/
def block3 {m n : ℕ} (M : Matrix (Fin m) (Fin n) K) (i j : ℕ) (hi : i + 3 ≤ m)
    (hj : j + 3 ≤ n) : Mat3 K :=
  fun r c => M ⟨i + r.val, by omega⟩ ⟨j + c.val, by omega⟩

/-- The block table of the error-state transition matrix as the specification words it, for
block row `bi` and block column `bj` (position, velocity, orientation, accelerometer bias,
gyroscope bias), with `R` the rotation matrix of the nominal orientation, `S` the skew-symmetric
matrix of the bias-corrected specific force and `G` the rotation matrix of the bias-corrected
angular rate times `dt`. -/
def transitionBlocks (R S G : Mat3 K) (dt : K) (bi bj : ℕ) : Mat3 K :=
  if bi = bj then (if bi = 2 then G else 1)
  else if bi = 0 ∧ bj = 1 then dt • (1 : Mat3 K)
  else if bi = 1 ∧ bj = 2 then dt • (-R * S)
  else if bi = 1 ∧ bj = 3 then dt • (-R)
  else if bi = 2 ∧ bj = 4 then dt • (-(1 : Mat3 K))
  else 0

/-- The position-selecting observation matrix `[I₃ | 0]`. -/
def selectPosition : Matrix (Fin 3) (Fin 15) K := fun i j => if j.val = i.val then 1 else 0

/-- Modelled from the spec: `getQuaFromAA` of `util.hpp`, which is not part of the source, is
the exponential map; the zero rotation vector gives the identity quaternion. -/
def ExpZero (d : Deps K) : Prop :=
  d.getQuaFromAA 0 = Quat.identity

/-- Modelled from the spec: `getRotFromAA` of `util.hpp`, which is not part of the source, is
the incremental rotation matrix of a rotation vector; the zero vector gives the identity
matrix. -/
def RotZero (d : Deps K) : Prop :=
  d.getRotFromAA 0 = 1

/-- The nominal state the constructor sets: zero position, velocity and biases, identity
orientation. -/
def freshState : State K :=
  { p := 0, q := Quat.identity, v := 0, a_b := 0, w_b := 0 }

/-- A sample of a platform at rest and level: specific force `(0, 0, 9.81)`, zero angular
rate. -/
def AtRest (s : ImuData K) : Prop :=
  s.acc = ![0, 0, 981 / 100] ∧ s.gyr = 0

/-- The `k`-th sample of the at-rest sequence: timestamps spaced `0.01` apart. -/
def atRestSample (k : ℕ) : ImuData K :=
  ⟨(k : K) / 100, ![0, 0, 981 / 100], 0⟩

/-- A caller feeding the samples `s 0, s 1, …` through `imuPredict`, one call per consecutive
pair: the object after `k` calls. -/
def feed (d : Deps K) (f : ImuGpsFusion K) (s : ℕ → ImuData K) : ℕ → ImuGpsFusion K
  | 0 => f
  | k + 1 => (feed d f s k).imuPredict d (s k) (s (k + 1))

/-- The trace of the 3×3 position block of a covariance. -/
def posTrace (P : Matrix (Fin 15) (Fin 15) K) : K := P 0 0 + P 1 1 + P 2 2

/-- The configuration a predict step reads besides the nominal state and the covariance. -/
def SameConfig (f g : ImuGpsFusion K) : Prop :=
  f.g_ = g.g_ ∧ f.Fi_ = g.Fi_ ∧ f.sigma_an_2_ = g.sigma_an_2_ ∧ f.sigma_wn_2_ = g.sigma_wn_2_
    ∧ f.sigma_aw_2_ = g.sigma_aw_2_ ∧ f.sigma_ww_2_ = g.sigma_ww_2_

/-- The covariance invariant: the matrix equals its transpose and its quadratic form is
non-negative. -/
def IsSymPSD {n : ℕ} (P : Matrix (Fin n) (Fin n) K) : Prop :=
  Pᵀ = P ∧ ∀ x : Fin n → K, 0 ≤ x ⬝ᵥ P.mulVec x

/-- The four configured noise parameters are non-negative. -/
def NoiseNonneg (f : ImuGpsFusion K) : Prop :=
  0 ≤ f.sigma_an_2_ ∧ 0 ≤ f.sigma_wn_2_ ∧ 0 ≤ f.sigma_aw_2_ ∧ 0 ≤ f.sigma_ww_2_

/-- The timestamps of a batch never decrease: every time delta of the predict loop is
non-negative. -/
def StampsOrdered (imus : List (ImuData K)) : Prop :=
  imus.Chain' (fun a b => a.stamp ≤ b.stamp)

/-- The objects reachable from construction by calls of the public member functions, the
predict and correct calls being made with non-negative noise parameters, non-negative time
deltas, symmetric positive semi-definite fix covariances and an invertible innovation
covariance. -/
inductive Reachable (d : Deps K) : ImuGpsFusion K → Prop where
  | construct (u : ImuGpsFusion K) : Reachable d (ImuGpsFusion.construct u)
  | cfgImuVar {f : ImuGpsFusion K} (a b c e : K) :
      Reachable d f → Reachable d (f.cfgImuVar a b c e)
  | cfgRefGps {f : ImuGpsFusion K} (a b c : K) :
      Reachable d f → Reachable d (f.cfgRefGps a b c)
  | imuInit {f : ImuGpsFusion K} (imus : List (ImuData K)) :
      Reachable d f → Reachable d (f.imuInit d imus)
  | recoverState {f : ImuGpsFusion K} (S : State K) :
      Reachable d f → Reachable d (f.recoverState S)
  | imuPredict {f : ImuGpsFusion K} (s1 s2 : ImuData K) :
      Reachable d f → NoiseNonneg f → s1.stamp ≤ s2.stamp →
      Reachable d (f.imuPredict d s1 s2)
  | gpsUpdate {f : ImuGpsFusion K} (gps : GpsData K) (imus : List (ImuData K))
      (r : ImuGpsFusion K) :
      Reachable d f → NoiseNonneg f → StampsOrdered imus → IsSymPSD gps.cov →
      (f.innovationCov d gps imus).det ≠ 0 →
      f.gpsUpdate d gps imus = Outcome.ok r → Reachable d r

end Filter

section Instances

/-- A rational stand-in for the exponential map: the quaternion
`((1 - n) / (1 + n), 2 u / (1 + n))` with `u = v / 4` and `n = |u|²`, which has unit norm. -/
def cayleyQuat (v : Vec3 ℚ) : Quat ℚ :=
  let u : Vec3 ℚ := fun i => v i / 4
  let n := dot u u
  ⟨(1 - n) / (1 + n), 2 * u 0 / (1 + n), 2 * u 1 / (1 + n), 2 * u 2 / (1 + n)⟩

/-- A concrete instance of the outside functions over `ℚ`, used to evaluate the embedding. -/
def demoDeps : Deps ℚ where
  sqrt := Rat.sqrt
  svdAxis := fun _ _ => ![1, 0, 0]
  getQuaFromAA := cayleyQuat
  getRotFromAA := fun v => (cayleyQuat v).toRotationMatrix
  vectorToSkewSymmetric := fun v => !![0, -v 2, v 1; v 2, 0, -v 0; -v 1, v 0, 0]
  lla2enu := fun lla ref => lla - ref

/-- An object with every member zero (and the zero quaternion), standing for memory before
construction. -/
def rawFilter (K : Type) [LinearOrderedField K] : ImuGpsFusion K where
  Fi_ := 0
  Hx_ := 0
  no_state_ := ⟨0, ⟨0, 0, 0, 0⟩, 0, 0, 0⟩
  ac_state_ := ⟨0, ⟨0, 0, 0, 0⟩, 0, 0, 0⟩
  P_ := 0
  g_ := 0
  Fx_ := 0
  Qi_ := 0
  H_ := 0
  V_ := 0
  sigma_an_2_ := 0
  sigma_wn_2_ := 0
  sigma_aw_2_ := 0
  sigma_ww_2_ := 0
  ref_lati_ := 0
  ref_long_ := 0
  ref_alti_ := 0

end Instances

section BlockLemmas

variable {K : Type}

theorem block3_setBlock_same {m n : ℕ} (M : Matrix (Fin m) (Fin n) K) (i j : ℕ) (B : Mat3 K)
    (hi : i + 3 ≤ m) (hj : j + 3 ≤ n) : block3 (setBlock 3 3 M i j B) i j hi hj = B := by
  ext r c
  have hr := r.isLt
  have hc := c.isLt
  have h : (i ≤ i + r.val ∧ i + r.val < i + 3) ∧ (j ≤ j + c.val ∧ j + c.val < j + 3) := by omega
  simp only [block3, setBlock]
  rw [dif_pos h]
  congr 1 <;> exact Fin.ext (by simp)

theorem block3_setBlock_disjoint {m n : ℕ} (M : Matrix (Fin m) (Fin n) K) (i j a b : ℕ)
    (B : Mat3 K) (ha : a + 3 ≤ m) (hb : b + 3 ≤ n)
    (h : a + 3 ≤ i ∨ i + 3 ≤ a ∨ b + 3 ≤ j ∨ j + 3 ≤ b) :
    block3 (setBlock 3 3 M i j B) a b ha hb = block3 M a b ha hb := by
  ext r c
  have hr := r.isLt
  have hc := c.isLt
  have h2 : ¬ ((i ≤ a + r.val ∧ a + r.val < i + 3) ∧ (j ≤ b + c.val ∧ b + c.val < j + 3)) := by
    omega
  simp only [block3, setBlock, h2, dite_false]

theorem ext_block3 (A B : Matrix (Fin 15) (Fin 15) K)
    (h : ∀ (bi bj : ℕ) (hbi : bi < 5) (hbj : bj < 5),
      block3 A (3 * bi) (3 * bj) (by omega) (by omega)
        = block3 B (3 * bi) (3 * bj) (by omega) (by omega)) : A = B := by
  ext r c
  have hr := r.isLt
  have hc := c.isLt
  have e := congrFun (congrFun (h (r.val / 3) (c.val / 3) (by omega) (by omega))
    ⟨r.val % 3, by omega⟩) ⟨c.val % 3, by omega⟩
  simp only [block3] at e
  have er : (⟨3 * (r.val / 3) + r.val % 3, by omega⟩ : Fin 15) = r := Fin.ext (by simp; omega)
  have ec : (⟨3 * (c.val / 3) + c.val % 3, by omega⟩ : Fin 15) = c := Fin.ext (by simp; omega)
  rw [er, ec] at e
  exact e

end BlockLemmas

section Lemmas

theorem cayleyQuat_normSq (v : Vec3 ℚ) : (cayleyQuat v).normSq = 1 := by
  have hn : 0 ≤ dot (fun i => v i / 4) (fun i => v i / 4) := by
    show 0 ≤ v 0 / 4 * (v 0 / 4) + v 1 / 4 * (v 1 / 4) + v 2 / 4 * (v 2 / 4)
    nlinarith [mul_self_nonneg (v 0 / 4), mul_self_nonneg (v 1 / 4), mul_self_nonneg (v 2 / 4)]
  have h1 : (1 : ℚ) + dot (fun i => v i / 4) (fun i => v i / 4) ≠ 0 := by linarith
  simp only [cayleyQuat, Quat.normSq]
  field_simp
  simp only [dot]
  ring

theorem vec3_eta {K : Type} (v : Vec3 K) : ![v 0, v 1, v 2] = v := by
  funext i
  fin_cases i <;> rfl

variable {K : Type} [LinearOrderedField K]

theorem predictLoop_eq_foldl (d : Deps K) (imus : List (ImuData K)) (f : ImuGpsFusion K) :
    f.predictLoop d imus
      = (imus.zip imus.tail).foldl (fun g ab => g.imuPredict d ab.1 ab.2) f := by
  induction imus generalizing f with
  | nil => rfl
  | cons a rest ih =>
    cases rest with
    | nil => rfl
    | cons b rest2 =>
      simp only [ImuGpsFusion.predictLoop, List.tail_cons, List.zip_cons_cons, List.foldl_cons]
      rw [ih]
      rfl

theorem Quat.normSq_mul (a b : Quat K) : (a.mul b).normSq = a.normSq * b.normSq := by
  simp only [Quat.normSq, Quat.mul]
  ring

theorem imuPredict_no_state (d : Deps K) (f : ImuGpsFusion K) (s1 s2 : ImuData K) :
    (f.imuPredict d s1 s2).no_state_ = (f.updateNominalState d s1 s2).no_state_ := rfl

theorem imuPredict_ac_state (d : Deps K) (f : ImuGpsFusion K) (s1 s2 : ImuData K) :
    (f.imuPredict d s1 s2).ac_state_ = f.ac_state_ := rfl

theorem updateNominalState_q (d : Deps K) (f : ImuGpsFusion K) (s1 s2 : ImuData K) :
    (f.updateNominalState d s1 s2).no_state_.q
      = f.no_state_.q.mul (d.getQuaFromAA
          ((s2.stamp - s1.stamp) • ((1 / 2 : K) • (s2.gyr + s1.gyr) - f.no_state_.w_b))) := rfl

theorem predictLoop_q_unit (d : Deps K) (hExp : ∀ v, (d.getQuaFromAA v).normSq = 1)
    (imus : List (ImuData K)) (f : ImuGpsFusion K) (h : f.no_state_.q.normSq = 1) :
    (f.predictLoop d imus).no_state_.q.normSq = 1 := by
  induction imus generalizing f with
  | nil => exact h
  | cons a rest ih =>
    cases rest with
    | nil => exact h
    | cons b rest2 =>
      simp only [ImuGpsFusion.predictLoop]
      apply ih
      rw [imuPredict_no_state, updateNominalState_q, Quat.normSq_mul, h, hExp, mul_one]

theorem correct_states (d : Deps K) (f : ImuGpsFusion K) (gps : GpsData K) :
    (f.correct d gps).no_state_ = (f.correct d gps).ac_state_
      ∧ ∃ v, (f.correct d gps).ac_state_.q = f.no_state_.q.mul (d.getQuaFromAA v) :=
  ⟨rfl, _, rfl⟩

theorem isSymPSD_zero {n : ℕ} : IsSymPSD (0 : Matrix (Fin n) (Fin n) K) := by
  refine ⟨transpose_zero, fun x => ?_⟩
  simp

theorem isSymPSD_add {n : ℕ} {A B : Matrix (Fin n) (Fin n) K} (hA : IsSymPSD A)
    (hB : IsSymPSD B) : IsSymPSD (A + B) := by
  refine ⟨by rw [transpose_add, hA.1, hB.1], fun x => ?_⟩
  rw [add_mulVec, dotProduct_add]
  exact add_nonneg (hA.2 x) (hB.2 x)

theorem isSymPSD_conj {m n : ℕ} (A : Matrix (Fin m) (Fin n) K) {P : Matrix (Fin n) (Fin n) K}
    (hP : IsSymPSD P) : IsSymPSD (A * P * Aᵀ) := by
  refine ⟨by rw [transpose_mul, transpose_mul, transpose_transpose, hP.1, Matrix.mul_assoc],
    fun x => ?_⟩
  have h : x ⬝ᵥ (A * P * Aᵀ).mulVec x = (Aᵀ.mulVec x) ⬝ᵥ P.mulVec (Aᵀ.mulVec x) := by
    rw [← mulVec_mulVec, ← mulVec_mulVec, dotProduct_mulVec, ← mulVec_transpose]
  rw [h]
  exact hP.2 _

theorem isSymPSD_diagonal {n : ℕ} (w : Fin n → K) (hw : ∀ i, 0 ≤ w i) :
    IsSymPSD (diagonal w) := by
  refine ⟨diagonal_transpose w, fun x => ?_⟩
  simp only [dotProduct, mulVec_diagonal]
  apply Finset.sum_nonneg
  intro i _
  nlinarith [hw i, mul_self_nonneg (x i), mul_nonneg (hw i) (mul_self_nonneg (x i))]

theorem scaleBlock_diagonal {n : ℕ} (p : ℕ) (w : Fin n → K) (i : ℕ) (s : K) :
    scaleBlock p p (diagonal w) i i s
      = diagonal (fun r => if i ≤ r.val ∧ r.val < i + p then w r * s else w r) := by
  ext r c
  by_cases h : r = c
  · subst h
    simp [scaleBlock]
  · simp [scaleBlock, h]

/-- The matrix built by `updateQ` is diagonal; its entries are the four parameters times
`dt²`, `dt²`, `dt`, `dt` on the four consecutive 3-blocks. -/
theorem updateQ_Qi (f : ImuGpsFusion K) (dt : K) :
    (f.updateQ dt).Qi_ = diagonal (fun r : Fin 12 =>
      if r.val < 3 then f.sigma_an_2_ * dt * dt
      else if r.val < 6 then f.sigma_wn_2_ * dt * dt
      else if r.val < 9 then f.sigma_aw_2_ * dt
      else f.sigma_ww_2_ * dt) := by
  simp only [ImuGpsFusion.updateQ]
  rw [← diagonal_one, scaleBlock_diagonal, scaleBlock_diagonal, scaleBlock_diagonal,
    scaleBlock_diagonal]
  refine congrArg diagonal (funext fun r => ?_)
  have hr := r.isLt
  split_ifs <;> first | (exfalso; omega) | simp only [one_mul]

theorem updateQ_Qi_psd (f : ImuGpsFusion K) (dt : K) (hf : NoiseNonneg f) (hdt : 0 ≤ dt) :
    IsSymPSD (f.updateQ dt).Qi_ := by
  rw [updateQ_Qi]
  obtain ⟨h1, h2, h3, h4⟩ := hf
  apply isSymPSD_diagonal
  intro r
  split_ifs
  · exact mul_nonneg (mul_nonneg h1 hdt) hdt
  · exact mul_nonneg (mul_nonneg h2 hdt) hdt
  · exact mul_nonneg h3 hdt
  · exact mul_nonneg h4 hdt

theorem imuPredict_P (d : Deps K) (f : ImuGpsFusion K) (s1 s2 : ImuData K) :
    (f.imuPredict d s1 s2).P_
      = (f.imuPredict d s1 s2).Fx_ * f.P_ * (f.imuPredict d s1 s2).Fx_ᵀ
        + f.Fi_ * (f.updateQ (s2.stamp - s1.stamp)).Qi_ * f.Fi_ᵀ := rfl

theorem imuPredict_psd (d : Deps K) (f : ImuGpsFusion K) (s1 s2 : ImuData K)
    (hP : IsSymPSD f.P_) (hf : NoiseNonneg f) (hdt : s1.stamp ≤ s2.stamp) :
    IsSymPSD (f.imuPredict d s1 s2).P_ := by
  rw [imuPredict_P]
  exact isSymPSD_add (isSymPSD_conj _ hP)
    (isSymPSD_conj _ (updateQ_Qi_psd f _ hf (sub_nonneg.mpr hdt)))

theorem predictLoop_psd (d : Deps K) (imus : List (ImuData K)) (f : ImuGpsFusion K)
    (hP : IsSymPSD f.P_) (hf : NoiseNonneg f) (ho : StampsOrdered imus) :
    IsSymPSD (f.predictLoop d imus).P_ := by
  induction imus generalizing f with
  | nil => exact hP
  | cons a rest ih =>
    cases rest with
    | nil => exact hP
    | cons b rest2 =>
      simp only [ImuGpsFusion.predictLoop]
      have ho2 : a.stamp ≤ b.stamp ∧ StampsOrdered (b :: rest2) := by
        simpa [StampsOrdered, List.chain'_cons] using ho
      exact ih _ (imuPredict_psd d f a b hP hf ho2.1) hf ho2.2

theorem correct_psd (d : Deps K) (f : ImuGpsFusion K) (gps : GpsData K)
    (hP : IsSymPSD f.P_) (hV : IsSymPSD gps.cov) : IsSymPSD (f.correct d gps).P_ := by
  simp only [ImuGpsFusion.correct, ImuGpsFusion.updateV, ImuGpsFusion.updateH]
  exact isSymPSD_add (isSymPSD_conj _ hP) (isSymPSD_conj _ hV)

theorem SqrtExact.ofSquares {d : Deps K} (hsqrt : SqrtExact d) : SqrtOfSquares d := by
  intro x hx
  obtain ⟨h0, h1⟩ := hsqrt (x * x) (mul_self_nonneg x)
  exact (mul_self_inj h0 hx).1 h1

theorem fromTwoVectors_main (v1 : Vec3 K) (h1 : dot v1 v1 = 1) (s : K)
    (hs : s * s = (1 + dot v1 ![0, 0, 1]) * 2) (hs0 : s ≠ 0) (G : K) :
    let axis := cross ![0, 0, 1] v1
    let q : Quat K := ⟨s * (1 / 2), axis 0 * (1 / s), axis 1 * (1 / s), axis 2 * (1 / s)⟩
    q.normSq = 1 ∧ q.rotate ![0, 0, G] = fun i => G * v1 i := by
  intro axis q
  simp only [dot, Matrix.cons_val_zero, Matrix.cons_val_one, Matrix.head_cons,
    Matrix.cons_val_two, Matrix.tail_cons, mul_zero, mul_one, add_zero, zero_add] at hs h1
  have hz : (1 + v1 2) * 2 ≠ 0 := by
    rw [← hs]
    exact mul_ne_zero hs0 hs0
  constructor
  · simp only [q, axis, Quat.normSq, cross, Matrix.cons_val_zero, Matrix.cons_val_one,
      Matrix.head_cons, Matrix.cons_val_two, Matrix.tail_cons]
    field_simp
    linear_combination (s * s) * ((s * s + (1 + v1 2) * 2 - 4) * hs + 4 * h1)
  · funext i
    fin_cases i
    · simp [q, axis, Quat.rotate, Quat.vec, cross]
      field_simp
      ring
    · simp [q, axis, Quat.rotate, Quat.vec, cross]
      field_simp
      ring
    · simp [q, axis, Quat.rotate, Quat.vec, cross]
      field_simp
      linear_combination (s * s) * (G * (1 - v1 2) * hs - 2 * G * h1)

theorem fromTwoVectors_opposite (v1 n : Vec3 K) (h1 : dot v1 v1 = 1) (α β : K) (hα : 0 ≤ α)
    (hβ : 0 ≤ β) (hα2 : α * α = (1 + v1 2) * (1 / 2)) (hβ2 : β * β = 1 - (1 + v1 2) * (1 / 2))
    (hn0 : dot n ![0, 0, 1] = 0) (hn1 : dot n v1 = 0) (hnn : dot n n = 1)
    (hor : 0 ≤ dot n (cross ![0, 0, 1] v1)) (G : K) :
    let q : Quat K := ⟨α, n 0 * β, n 1 * β, n 2 * β⟩
    q.normSq = 1 ∧ q.rotate ![0, 0, G] = fun i => G * v1 i := by
  intro q
  simp only [dot, cross, Matrix.cons_val_zero, Matrix.cons_val_one, Matrix.head_cons,
    Matrix.cons_val_two, Matrix.tail_cons, mul_zero, mul_one, add_zero, zero_add, zero_mul,
    one_mul, sub_zero, zero_sub, sub_self] at h1 hn0 hn1 hnn hor
  replace hn1 : n 0 * v1 0 + n 1 * v1 1 = 0 := by linear_combination hn1 - v1 2 * hn0
  replace hnn : n 0 * n 0 + n 1 * n 1 = 1 := by linear_combination hnn - n 2 * hn0
  have hμ : 2 * α * β = n 1 * v1 0 - n 0 * v1 1 := by
    have hl : 0 ≤ 2 * α * β := by positivity
    have hr : 0 ≤ n 1 * v1 0 - n 0 * v1 1 := by linarith
    refine (mul_self_inj hl hr).1 ?_
    linear_combination 4 * β * β * hα2 + 2 * (1 + v1 2) * hβ2 - h1
      - (v1 0 * v1 0 + v1 1 * v1 1) * hnn + (n 0 * v1 0 + n 1 * v1 1) * hn1
  have e0 : 2 * α * β * n 1 = v1 0 := by
    rw [hμ]
    linear_combination v1 0 * hnn - n 0 * hn1
  have e1 : -(2 * α * β * n 0) = v1 1 := by
    rw [hμ]
    linear_combination v1 1 * hnn - n 1 * hn1
  constructor
  · simp only [q, Quat.normSq, hn0]
    linear_combination hα2 + hβ2 + β * β * hnn
  · funext i
    fin_cases i
    · simp [q, Quat.rotate, Quat.vec, cross, hn0]
      linear_combination G * e0
    · simp [q, Quat.rotate, Quat.vec, cross, hn0]
      linear_combination G * e1
    · simp [q, Quat.rotate, Quat.vec, cross, hn0]
      linear_combination (-2 * G) * hβ2 - 2 * G * β * β * hnn

theorem dot_self_pos (m : Vec3 K) (hm : m ≠ 0) : 0 < dot m m := by
  by_contra hle
  push_neg at hle
  simp only [dot] at hle
  have h0 : m 0 = 0 := by
    nlinarith [mul_self_nonneg (m 0), mul_self_nonneg (m 1), mul_self_nonneg (m 2)]
  have h1 : m 1 = 0 := by
    nlinarith [mul_self_nonneg (m 0), mul_self_nonneg (m 1), mul_self_nonneg (m 2)]
  have h2 : m 2 = 0 := by
    nlinarith [mul_self_nonneg (m 0), mul_self_nonneg (m 1), mul_self_nonneg (m 2)]
  apply hm
  funext i
  fin_cases i
  · exact h0
  · exact h1
  · exact h2

theorem normalized_gravity (d : Deps K) (hsqrt : SqrtOfSquares d) :
    normalized d.sqrt ![0, 0, 981 / 100] = ![0, 0, 1] := by
  have hz : dot (![0, 0, 981 / 100] : Vec3 K) ![0, 0, 981 / 100] = 981 / 100 * (981 / 100) := by
    simp [dot]
  have hs : d.sqrt (981 / 100 * (981 / 100)) = 981 / 100 := hsqrt _ (by norm_num)
  have hpos : (0 : K) < 981 / 100 * (981 / 100) := by norm_num
  simp only [normalized, hz, hpos, if_true, hs]
  funext i
  fin_cases i <;> simp

theorem normalized_unit (d : Deps K) (hsqrt : SqrtExact d) (m : Vec3 K) (hm : m ≠ 0) :
    normalized d.sqrt m = (fun i => m i / d.sqrt (dot m m))
      ∧ dot (normalized d.sqrt m) (normalized d.sqrt m) = 1 := by
  have hpos := dot_self_pos m hm
  obtain ⟨h0, h1⟩ := hsqrt (dot m m) hpos.le
  have hN : d.sqrt (dot m m) ≠ 0 := by
    intro h
    rw [h, mul_zero] at h1
    exact hpos.ne h1
  have e : normalized d.sqrt m = (fun i => m i / d.sqrt (dot m m)) := by
    simp only [normalized, hpos, if_true]
  refine ⟨e, ?_⟩
  rw [e]
  generalize d.sqrt (dot m m) = N at h1 hN
  simp only [dot] at h1 ⊢
  field_simp
  linear_combination -h1

theorem fromTwoVectors_opposite_unit (n : Vec3 K) (α β w : K) (hα2 : α * α = w)
    (hβ2 : β * β = 1 - w) (hnn : dot n n = 1) :
    (⟨α, n 0 * β, n 1 * β, n 2 * β⟩ : Quat K).normSq = 1 := by
  simp only [dot] at hnn
  simp only [Quat.normSq]
  linear_combination hα2 + hβ2 + β * β * hnn

theorem fromTwoVectors_gravity_unit (d : Deps K) (hsqrt : SqrtExact d) (m : Vec3 K)
    (hm : m ≠ 0) (hsvd : SvdAxisUnit d ![0, 0, 981 / 100] m) :
    (fromTwoVectors d ![0, 0, 981 / 100] m).normSq = 1 := by
  obtain ⟨_, hu⟩ := normalized_unit d hsqrt m hm
  have hg := normalized_gravity d hsqrt.ofSquares
  simp only [SvdAxisUnit, hg] at hsvd
  simp only [fromTwoVectors, hg]
  generalize normalized d.sqrt m = v1 at hu hsvd ⊢
  have hc : dot v1 ![0, 0, 1] = v1 2 := by simp [dot]
  have hz : -1 ≤ v1 2 ∧ v1 2 ≤ 1 := by
    simp only [dot] at hu
    constructor <;> nlinarith [mul_self_nonneg (v1 0), mul_self_nonneg (v1 1)]
  by_cases hb : dot v1 ![0, 0, 1] < -1 + dummy_precision
  · simp only [hb, if_true]
    have hmax : max (dot v1 ![0, 0, 1]) (-1) = v1 2 := by
      rw [hc]
      exact max_eq_left hz.1
    rw [hmax]
    obtain ⟨_, a1⟩ := hsqrt ((1 + v1 2) * (1 / 2)) (by nlinarith [hz.1])
    obtain ⟨_, b1⟩ := hsqrt (1 - (1 + v1 2) * (1 / 2)) (by nlinarith [hz.2])
    exact fromTwoVectors_opposite_unit _ _ _ _ a1 b1 (hsvd hb)
  · simp only [hb, if_false]
    have hpos : 0 < (1 + dot v1 ![0, 0, 1]) * 2 := by
      have hp : (0 : K) < dummy_precision := by norm_num [dummy_precision]
      have hge : -1 + dummy_precision ≤ dot v1 ![0, 0, 1] := not_lt.1 hb
      linarith
    obtain ⟨s0, s1⟩ := hsqrt _ hpos.le
    have hs0 : d.sqrt ((1 + dot v1 ![0, 0, 1]) * 2) ≠ 0 := by
      intro h
      rw [h, mul_zero] at s1
      exact hpos.ne s1
    have h := fromTwoVectors_main v1 hu _ s1 hs0 0
    exact h.1

theorem fromTwoVectors_gravity (d : Deps K) (hsqrt : SqrtExact d) (m : Vec3 K) (hm : m ≠ 0)
    (hsvd : SvdAxisNull d ![0, 0, 981 / 100] m) :
    (fromTwoVectors d ![0, 0, 981 / 100] m).normSq = 1
      ∧ (¬ NearlyOpposite d ![0, 0, 981 / 100] m →
          (fromTwoVectors d ![0, 0, 981 / 100] m).rotate ![0, 0, 981 / 100]
            = fun i => 981 / 100 * (m i / d.sqrt (dot m m))) := by
  obtain ⟨e, hu⟩ := normalized_unit d hsqrt m hm
  have hg := normalized_gravity d hsqrt.ofSquares
  simp only [SvdAxisNull, hg] at hsvd
  simp only [NearlyOpposite, fromTwoVectors, hg]
  have e2 : (fun i => 981 / 100 * (m i / d.sqrt (dot m m)))
      = fun i => 981 / 100 * normalized d.sqrt m i := by rw [e]
  rw [e2]
  generalize normalized d.sqrt m = v1 at hu hsvd ⊢
  have hc : dot v1 ![0, 0, 1] = v1 2 := by simp [dot]
  have hz : -1 ≤ v1 2 ∧ v1 2 ≤ 1 := by
    simp only [dot] at hu
    constructor <;> nlinarith [mul_self_nonneg (v1 0), mul_self_nonneg (v1 1)]
  by_cases hb : dot v1 ![0, 0, 1] < -1 + dummy_precision
  · simp only [hb, if_true, true_and, not_not]
    obtain ⟨hn0, hn1, hnn⟩ := hsvd hb
    have hmax : max (dot v1 ![0, 0, 1]) (-1) = v1 2 := by
      rw [hc]
      exact max_eq_left hz.1
    rw [hmax]
    obtain ⟨a0, a1⟩ := hsqrt ((1 + v1 2) * (1 / 2)) (by nlinarith [hz.1])
    obtain ⟨b0, b1⟩ := hsqrt (1 - (1 + v1 2) * (1 / 2)) (by nlinarith [hz.2])
    refine ⟨fromTwoVectors_opposite_unit _ _ _ _ a1 b1 hnn, fun hopp => ?_⟩
    rw [hc] at hopp
    have hxy : v1 0 = 0 ∧ v1 1 = 0 := by
      have hu2 := hu
      simp only [dot] at hu2
      have hs : v1 0 * v1 0 + v1 1 * v1 1 = 0 := by
        linear_combination hu2 - (v1 2 - 1) * hopp
      exact mul_self_add_mul_self_eq_zero.1 hs
    have hor : 0 ≤ dot (d.svdAxis ![0, 0, 1] v1) (cross ![0, 0, 1] v1) := by
      simp [dot, cross, hxy.1, hxy.2]
    exact (fromTwoVectors_opposite v1 _ hu _ _ a0 b0 a1 b1 hn0 hn1 hnn hor (981 / 100)).2
  · simp only [hb, if_false, false_and, not_false_eq_true, true_implies]
    have hpos : 0 < (1 + dot v1 ![0, 0, 1]) * 2 := by
      have hp : (0 : K) < dummy_precision := by norm_num [dummy_precision]
      have hge : -1 + dummy_precision ≤ dot v1 ![0, 0, 1] := not_lt.1 hb
      linarith
    obtain ⟨s0, s1⟩ := hsqrt _ hpos.le
    have hs0 : d.sqrt ((1 + dot v1 ![0, 0, 1]) * 2) ≠ 0 := by
      intro h
      rw [h, mul_zero] at s1
      exact hpos.ne s1
    exact fromTwoVectors_main v1 hu _ s1 hs0 _

theorem sliver_normalized (d : Deps K) (hsqrt : SqrtExact d) (a b : K)
    (hab : a * a + b * b = 1) :
    dot (![0, -(2 * a * b), a * a - b * b] : Vec3 K) ![0, -(2 * a * b), a * a - b * b] = 1
      ∧ normalized d.sqrt ![0, -(2 * a * b), a * a - b * b]
          = ![0, -(2 * a * b), a * a - b * b] := by
  have hd : dot (![0, -(2 * a * b), a * a - b * b] : Vec3 K)
      ![0, -(2 * a * b), a * a - b * b] = 1 := by
    simp only [dot, Matrix.cons_val_zero, Matrix.cons_val_one, Matrix.head_cons,
      Matrix.cons_val_two, Matrix.tail_cons]
    linear_combination (a * a + b * b + 1) * hab
  have hs1 : d.sqrt 1 = 1 := by
    have h := hsqrt.ofSquares 1 zero_le_one
    rwa [mul_one] at h
  refine ⟨hd, ?_⟩
  simp only [normalized, hd, zero_lt_one, if_true, hs1, div_one]

theorem fromTwoVectors_mirrored (d : Deps K) (hsqrt : SqrtExact d) (a b : K) (ha : 0 ≤ a)
    (hb : 0 ≤ b) (hab : a * a + b * b = 1) (hsmall : 2 * (a * a) < dummy_precision)
    (hax : d.svdAxis ![0, 0, 1] ![0, -(2 * a * b), a * a - b * b] = ![-1, 0, 0]) :
    (fromTwoVectors d ![0, 0, 981 / 100] ![0, -(2 * a * b), a * a - b * b]).rotate
        ![0, 0, 981 / 100]
      = ![0, 981 / 100 * (2 * a * b), 981 / 100 * (a * a - b * b)] := by
  obtain ⟨_, hn⟩ := sliver_normalized d hsqrt a b hab
  have hg := normalized_gravity d hsqrt.ofSquares
  have hc : dot (![0, -(2 * a * b), a * a - b * b] : Vec3 K) ![0, 0, 1] = a * a - b * b := by
    simp [dot]
  have hbr : a * a - b * b < -1 + dummy_precision := by linarith
  have hmax : max (a * a - b * b) (-1) = a * a - b * b :=
    max_eq_left (by nlinarith [mul_self_nonneg a])
  have hw : (1 + (a * a - b * b)) * (1 / 2) = a * a := by linear_combination (-1 / 2) * hab
  have hw2 : 1 - a * a = b * b := by linear_combination (-1) * hab
  simp only [fromTwoVectors, hg, hn, hc, hbr, if_true, hmax, hw, hw2, hsqrt.ofSquares a ha,
    hsqrt.ofSquares b hb, hax]
  funext i
  fin_cases i
  · simp [Quat.rotate, Quat.vec, cross]
  · simp [Quat.rotate, Quat.vec, cross]
    ring
  · simp [Quat.rotate, Quat.vec, cross]
    linear_combination (-(981 / 100)) * hab

theorem foldl_add_apply (l : List (Vec3 K)) (t : Vec3 K) (i : Fin 3) :
    (l.foldl (fun t a => t + a) t) i = t i + (l.map (fun v => v i)).sum := by
  induction l generalizing t with
  | nil => simp
  | cons a l ih =>
    simp only [List.foldl_cons, List.map_cons, List.sum_cons]
    rw [ih]
    simp only [Pi.add_apply]
    ring

theorem sumVec_div_length (l : List (Vec3 K)) :
    (fun i => sumVec l i / (l.length : K)) = mean l := by
  funext i
  simp only [sumVec, mean, foldl_add_apply, Pi.zero_apply, zero_add]

theorem neg_gravity : -(![0, 0, -(981 / 100)] : Vec3 K) = ![0, 0, 981 / 100] := by
  funext i
  fin_cases i <;> simp

/-- The assignments of `imuInit`, with the mean written as `mean`. -/
theorem imuInit_fields (d : Deps K) (f : ImuGpsFusion K) (imus : List (ImuData K)) :
    let m := mean (imus.map ImuData.acc)
    let q := fromTwoVectors d (-f.g_) m
    (f.imuInit d imus).no_state_
        = { p := f.no_state_.p, q := q, v := f.no_state_.v, a_b := q.rotate f.g_ + m,
            w_b := mean (imus.map ImuData.gyr) }
      ∧ (f.imuInit d imus).ac_state_ = (f.imuInit d imus).no_state_ := by
  intro m q
  refine ⟨?_, rfl⟩
  simp only [ImuGpsFusion.imuInit, m, q]
  rw [← sumVec_div_length, ← sumVec_div_length]
  simp only [List.length_map]

theorem mean_const (l : List (Vec3 K)) (c : Vec3 K) (hne : l ≠ []) (h : ∀ x ∈ l, x = c) :
    mean l = c := by
  funext i
  have hsum : ∀ l : List (Vec3 K), (∀ x ∈ l, x = c) →
      (l.map (fun v => v i)).sum = (l.length : K) * c i := by
    intro l
    induction l with
    | nil => simp
    | cons a l ih =>
      intro h
      have ha : a = c := h a (List.mem_cons_self a l)
      simp only [List.map_cons, List.sum_cons, List.length_cons, Nat.cast_add, Nat.cast_one]
      rw [ih (fun x hx => h x (List.mem_cons_of_mem a hx)), ha]
      ring
  have hlen : (l.length : K) ≠ 0 := by
    have : l.length ≠ 0 := fun h0 => hne (List.length_eq_zero.1 h0)
    exact_mod_cast this
  simp only [mean]
  rw [hsum l h]
  field_simp

theorem fromTwoVectors_vertical (d : Deps K) (hsqrt : SqrtOfSquares d) :
    fromTwoVectors d ![0, 0, 981 / 100] ![0, 0, 981 / 100] = Quat.identity := by
  have hg := normalized_gravity d hsqrt
  have h4 : d.sqrt ((1 + 1) * 2) = 2 := by
    have e : ((1 : K) + 1) * 2 = 2 * 2 := by norm_num
    rw [e]
    exact hsqrt 2 (by norm_num)
  have hc : dot (![0, 0, 1] : Vec3 K) ![0, 0, 1] = 1 := by simp [dot]
  have hb : ¬ ((1 : K) < -1 + dummy_precision) := by norm_num [dummy_precision]
  simp only [fromTwoVectors, hg, hc, hb, if_false, h4, Quat.identity]
  simp [cross]

theorem rotate_identity (v : Vec3 K) : (Quat.identity : Quat K).rotate v = v := by
  funext i
  fin_cases i <;> simp [Quat.rotate, Quat.identity, Quat.vec, cross]

/-- The assignments of `updateNominalState`, for any value of the member `g_`. -/
theorem updateNominalState_general (d : Deps K) (f : ImuGpsFusion K) (s1 s2 : ImuData K) :
    let dt := s2.stamp - s1.stamp
    let abar : Vec3 K := fun i => (s1.acc i + s2.acc i) / 2
    let wbar : Vec3 K := fun i => (s1.gyr i + s2.gyr i) / 2
    let x := f.no_state_
    let acc : Vec3 K := x.q.toRotationMatrix.mulVec (abar - x.a_b) + f.g_
    let y := (f.updateNominalState d s1 s2).no_state_
    (∀ i, y.p i = x.p i + x.v i * dt + 1 / 2 * acc i * dt ^ 2)
      ∧ (∀ i, y.v i = x.v i + acc i * dt)
      ∧ y.q = x.q.mul (d.getQuaFromAA (fun i => (wbar i - x.w_b i) * dt))
      ∧ y.a_b = x.a_b ∧ y.w_b = x.w_b := by
  intro dt abar wbar x acc y
  have hab : (1 / 2 : K) • (s2.acc + s1.acc) = abar := by
    funext i
    simp only [abar, Pi.smul_apply, Pi.add_apply, smul_eq_mul]
    ring
  have hwb : (1 / 2 : K) • (s2.gyr + s1.gyr) = wbar := by
    funext i
    simp only [wbar, Pi.smul_apply, Pi.add_apply, smul_eq_mul]
    ring
  refine ⟨?_, ?_, ?_, rfl, rfl⟩
  · intro i
    simp only [y, ImuGpsFusion.updateNominalState, hab, Pi.add_apply, Pi.smul_apply,
      smul_eq_mul]
    simp only [acc, x, Pi.add_apply]
    ring
  · intro i
    simp only [y, ImuGpsFusion.updateNominalState, hab, Pi.add_apply, Pi.smul_apply,
      smul_eq_mul]
    simp only [acc, x, Pi.add_apply]
    ring
  · simp only [y, ImuGpsFusion.updateNominalState, hwb]
    congr 2
    funext i
    simp only [Pi.smul_apply, Pi.sub_apply, smul_eq_mul, x]
    ring

theorem inverse3_mul (m : Mat3 K) (h : m.det ≠ 0) :
    inverse3 m * m = 1 ∧ m * inverse3 m = 1 := by
  have hD : (m 1 1 * m 2 2 - m 1 2 * m 2 1) * m 0 0 + (m 0 2 * m 2 1 - m 0 1 * m 2 2) * m 1 0
      + (m 0 1 * m 1 2 - m 0 2 * m 1 1) * m 2 0 ≠ 0 := by
    intro h0
    apply h
    rw [Matrix.det_fin_three]
    linear_combination h0
  have hl : inverse3 m * m = 1 := by
    ext i j
    fin_cases i <;> fin_cases j <;>
      simp [inverse3, Matrix.mul_apply, Fin.sum_univ_three] <;> field_simp <;> ring
  exact ⟨hl, Matrix.mul_eq_one_comm.1 hl⟩

theorem det_psd_add_ne_zero {n : ℕ} (A : Matrix (Fin n) (Fin n) K) (hA : IsSymPSD A) :
    (A + 1).det ≠ 0 := by
  intro h
  obtain ⟨v, hv, hv0⟩ := Matrix.exists_mulVec_eq_zero_iff.2 h
  have h0 : v ⬝ᵥ (A + 1).mulVec v = 0 := by
    rw [hv0]
    simp
  rw [add_mulVec, one_mulVec, dotProduct_add] at h0
  have h1 := hA.2 v
  have h2 : 0 ≤ v ⬝ᵥ v := by
    simp only [dotProduct]
    exact Finset.sum_nonneg (fun i _ => mul_self_nonneg (v i))
  have h3 : v ⬝ᵥ v = 0 := by linarith
  exact hv (dotProduct_self_eq_zero.1 h3)

theorem construct_Hx (u : ImuGpsFusion K) :
    (ImuGpsFusion.construct u).Hx_ = fun i k => if k.val = i.val then 1 else 0 := by
  ext i k
  have hi := i.isLt
  simp only [ImuGpsFusion.construct, setBlock]
  by_cases h : k.val = i.val
  · have hc : (0 ≤ i.val ∧ i.val < 0 + 3) ∧ (0 ≤ k.val ∧ k.val < 0 + 3) := by omega
    simp only [hc, dite_true, h, if_true, Matrix.one_apply]
    simp [Fin.ext_iff, h]
  · simp only [h, if_false]
    split_ifs with hc
    · rw [Matrix.one_apply, if_neg]
      intro e
      apply h
      have := congrArg Fin.val e
      simp at this
      omega
    · rfl

theorem construct_Fi (u : ImuGpsFusion K) :
    (ImuGpsFusion.construct u).Fi_ = fun r k => if r.val = k.val + 3 then 1 else 0 := by
  ext r k
  have hk := k.isLt
  simp only [ImuGpsFusion.construct, setBlock]
  by_cases h : r.val = k.val + 3
  · have hc : (3 ≤ r.val ∧ r.val < 3 + 12) ∧ (0 ≤ k.val ∧ k.val < 0 + 12) := by omega
    simp only [hc, dite_true, h, if_true, Matrix.one_apply]
    simp [Fin.ext_iff]
  · simp only [h, if_false]
    split_ifs with hc
    · rw [Matrix.one_apply, if_neg]
      intro e
      apply h
      have := congrArg Fin.val e
      simp at this
      omega
    · rfl

theorem updateH_H (f : ImuGpsFusion K) (hHx : f.Hx_ = (ImuGpsFusion.construct f).Hx_) :
    f.updateH.H_ = fun i j => if j.val = i.val then 1 else 0 := by
  ext i j
  have hi := i.isLt
  have hj := j.isLt
  simp only [ImuGpsFusion.updateH, Matrix.mul_apply]
  rw [hHx, construct_Hx]
  rw [Finset.sum_eq_single (⟨i.val, by omega⟩ : Fin 16)]
  · simp only [if_true, one_mul, scaleBlock, setBlock]
    have e1 : ¬ ((6 ≤ i.val ∧ i.val < 6 + 4) ∧ (6 ≤ j.val ∧ j.val < 6 + 3)) := by omega
    have e2 : ¬ ((10 ≤ i.val ∧ i.val < 10 + 6) ∧ (9 ≤ j.val ∧ j.val < 9 + 6)) := by omega
    simp only [e1, e2, if_false, dite_false]
    by_cases h : j.val = i.val
    · have hc : (0 ≤ i.val ∧ i.val < 0 + 6) ∧ (0 ≤ j.val ∧ j.val < 0 + 6) := by omega
      simp only [hc, dite_true, h, if_true, Matrix.one_apply]
      simp [Fin.ext_iff, h]
    · simp only [h, if_false]
      split_ifs with hc
      · rw [Matrix.one_apply, if_neg]
        intro e
        apply h
        have := congrArg Fin.val e
        simp at this
        omega
      · rfl
  · intro k _ hk
    have : ¬ (k.val = i.val) := fun e => hk (Fin.ext e)
    simp only [this, if_false, zero_mul]
  · intro h
    exact absurd (Finset.mem_univ _) h


theorem block3_one_diag {n : ℕ} (a : ℕ) (ha : a + 3 ≤ n) :
    block3 (1 : Matrix (Fin n) (Fin n) K) a a ha ha = 1 := by
  ext r c
  simp only [block3, Matrix.one_apply, Fin.mk.injEq, add_right_inj, Fin.val_inj]

theorem block3_one_off {n : ℕ} (a b : ℕ) (ha : a + 3 ≤ n) (hb : b + 3 ≤ n)
    (h : a + 3 ≤ b ∨ b + 3 ≤ a) : block3 (1 : Matrix (Fin n) (Fin n) K) a b ha hb = 0 := by
  ext r c
  have hr := r.isLt
  have hc := c.isLt
  have h2 : ¬ (a + r.val = b + c.val) := by omega
  simp only [block3, Matrix.one_apply, Fin.mk.injEq, h2, if_false, Matrix.zero_apply]

theorem calcF_blocks (d : Deps K) (f : ImuGpsFusion K) (s : ImuData K) (dt : K)
    (bi bj : ℕ) (hbi : bi < 5) (hbj : bj < 5) :
    block3 (f.calcF d s dt).Fx_ (3 * bi) (3 * bj) (by omega) (by omega)
      = transitionBlocks f.no_state_.q.toRotationMatrix
          (d.vectorToSkewSymmetric (s.acc - f.no_state_.a_b))
          (d.getRotFromAA (dt • (s.gyr - f.no_state_.w_b))) dt bi bj := by
  simp only [ImuGpsFusion.calcF]
  interval_cases bi <;> interval_cases bj <;>
    simp [transitionBlocks, block3_setBlock_same, block3_setBlock_disjoint, block3_one_diag,
      block3_one_off]


/-- The noise-input mapping moves a diagonal 12×12 matrix to rows and columns 3 to 14. -/
theorem Fi_conj_diagonal (u : ImuGpsFusion K) (w : Fin 12 → K) :
    (ImuGpsFusion.construct u).Fi_ * diagonal w * (ImuGpsFusion.construct u).Fi_ᵀ
      = diagonal (fun r : Fin 15 => if h : 3 ≤ r.val then w ⟨r.val - 3, by omega⟩ else 0) := by
  rw [construct_Fi]
  ext r c
  have hr := r.isLt
  rw [Matrix.mul_apply]
  simp only [Matrix.mul_diagonal, transpose_apply, diagonal_apply]
  by_cases h3 : 3 ≤ r.val
  · rw [Finset.sum_eq_single (⟨r.val - 3, by omega⟩ : Fin 12)]
    · have e1 : r.val = r.val - 3 + 3 := by omega
      simp only [dif_pos h3]
      by_cases hrc : r = c
      · subst hrc
        simp [← e1]
      · have : ¬ (c.val = r.val - 3 + 3) := by
          intro e
          apply hrc
          exact Fin.ext (by omega)
        simp [hrc, this]
    · intro l _ hl
      have : ¬ (r.val = l.val + 3) := by
        intro e
        apply hl
        exact Fin.ext (by simp; omega)
      simp [this]
    · intro h
      exact absurd (Finset.mem_univ _) h
  · have hz : ∀ l : Fin 12, ¬ (r.val = l.val + 3) := by
      intro l
      omega
    simp [hz, h3]

theorem noise_term (u : ImuGpsFusion K) (f : ImuGpsFusion K)
    (hFi : f.Fi_ = (ImuGpsFusion.construct u).Fi_) (dt : K) :
    f.Fi_ * (f.updateQ dt).Qi_ * f.Fi_ᵀ
      = diagonal (fun r : Fin 15 =>
          if r.val < 3 then 0
          else if r.val < 6 then f.sigma_an_2_ * dt * dt
          else if r.val < 9 then f.sigma_wn_2_ * dt * dt
          else if r.val < 12 then f.sigma_aw_2_ * dt
          else f.sigma_ww_2_ * dt) := by
  rw [hFi, updateQ_Qi, Fi_conj_diagonal]
  refine congrArg diagonal (funext fun r => ?_)
  have hr := r.isLt
  dsimp only
  split_ifs <;> first | (exfalso; omega) | rfl


theorem Quat.mul_identity (q : Quat K) : q.mul Quat.identity = q := by
  simp [Quat.mul, Quat.identity]

theorem calcF_zero_dt (d : Deps K) (hR : RotZero d) (f : ImuGpsFusion K) (s : ImuData K) :
    (f.calcF d s 0).Fx_ = 1 := by
  apply ext_block3
  intro bi bj hbi hbj
  rw [calcF_blocks d f s 0 bi bj hbi hbj]
  have hR0 : d.getRotFromAA 0 = 1 := hR
  interval_cases bi <;> interval_cases bj <;>
    simp [transitionBlocks, block3_one_diag, block3_one_off, hR0]

theorem updateQ_zero_dt (f : ImuGpsFusion K) : (f.updateQ 0).Qi_ = 0 := by
  rw [updateQ_Qi]
  ext r c
  simp [diagonal_apply]

theorem updateNominalState_zero_dt (d : Deps K) (hE : ExpZero d) (f : ImuGpsFusion K)
    (s1 s2 : ImuData K) (hdt : s2.stamp = s1.stamp) :
    (f.updateNominalState d s1 s2).no_state_ = f.no_state_ := by
  have hE0 : d.getQuaFromAA 0 = Quat.identity := hE
  simp only [ImuGpsFusion.updateNominalState, hdt, sub_self, zero_smul, add_zero, hE0,
    Quat.mul_identity]

theorem imuPredict_zero_dt (d : Deps K) (hE : ExpZero d) (hR : RotZero d) (f : ImuGpsFusion K)
    (s1 s2 : ImuData K) (hdt : s2.stamp = s1.stamp) :
    (f.imuPredict d s1 s2).no_state_ = f.no_state_ ∧ (f.imuPredict d s1 s2).P_ = f.P_ := by
  refine ⟨updateNominalState_zero_dt d hE f s1 s2 hdt, ?_⟩
  rw [imuPredict_P]
  have hF : (f.imuPredict d s1 s2).Fx_ = 1 := by
    simp only [ImuGpsFusion.imuPredict, ImuGpsFusion.updateQ, hdt, sub_self]
    exact calcF_zero_dt d hR _ _
  rw [hF, hdt, sub_self, updateQ_zero_dt]
  simp


theorem selectPosition_mul {n : ℕ} (M : Matrix (Fin 15) (Fin n) K) (i : Fin 3) (c : Fin n) :
    ((selectPosition : Matrix (Fin 3) (Fin 15) K) * M) i c = M ⟨i.val, by omega⟩ c := by
  rw [Matrix.mul_apply, Finset.sum_eq_single (⟨i.val, by omega⟩ : Fin 15)]
  · simp [selectPosition]
  · intro k _ hk
    have : ¬ (k.val = i.val) := fun e => hk (Fin.ext e)
    simp [selectPosition, this]
  · intro h
    exact absurd (Finset.mem_univ _) h

theorem mul_selectPosition_transpose {n : ℕ} (M : Matrix (Fin n) (Fin 15) K) (r : Fin n)
    (j : Fin 3) :
    (M * (selectPosition : Matrix (Fin 3) (Fin 15) K)ᵀ) r j = M r ⟨j.val, by omega⟩ := by
  rw [Matrix.mul_apply, Finset.sum_eq_single (⟨j.val, by omega⟩ : Fin 15)]
  · simp [selectPosition]
  · intro k _ hk
    have : ¬ (k.val = j.val) := fun e => hk (Fin.ext e)
    simp [selectPosition, this]
  · intro h
    exact absurd (Finset.mem_univ _) h

theorem innovation_selectPosition (P : Matrix (Fin 15) (Fin 15) K) :
    (selectPosition : Matrix (Fin 3) (Fin 15) K) * P * selectPositionᵀ
      = block3 P 0 0 (by omega) (by omega) := by
  ext i j
  rw [mul_selectPosition_transpose, selectPosition_mul]
  simp [block3]

theorem gain_top (P : Matrix (Fin 15) (Fin 15) K) (M : Mat3 K) (i j : Fin 3) :
    (P * (selectPosition : Matrix (Fin 3) (Fin 15) K)ᵀ * M) ⟨i.val, by omega⟩ j
      = (block3 P 0 0 (by omega) (by omega) * M) i j := by
  rw [Matrix.mul_apply, Matrix.mul_apply]
  refine Finset.sum_congr rfl (fun l _ => ?_)
  rw [mul_selectPosition_transpose]
  simp [block3]

theorem joseph_eq_simplified (P : Matrix (Fin 15) (Fin 15) K) (H : Matrix (Fin 3) (Fin 15) K)
    (V : Mat3 K) (hS : (H * P * Hᵀ + V).det ≠ 0) :
    (1 - P * Hᵀ * inverse3 (H * P * Hᵀ + V) * H) * P
        * (1 - P * Hᵀ * inverse3 (H * P * Hᵀ + V) * H)ᵀ
      + P * Hᵀ * inverse3 (H * P * Hᵀ + V) * V * (P * Hᵀ * inverse3 (H * P * Hᵀ + V))ᵀ
      = (1 - P * Hᵀ * inverse3 (H * P * Hᵀ + V) * H) * P := by
  obtain ⟨hinv, _⟩ := inverse3_mul _ hS
  generalize hKg : P * Hᵀ * inverse3 (H * P * Hᵀ + V) = Kg
  have hKS : Kg * (H * P * Hᵀ + V) = P * Hᵀ := by
    rw [← hKg, Matrix.mul_assoc, hinv, Matrix.mul_one]
  have key : (1 - Kg * H) * P * Hᵀ = Kg * V := by
    have e1 : (1 - Kg * H) * P * Hᵀ = P * Hᵀ - Kg * (H * P * Hᵀ) := by
      rw [Matrix.sub_mul, Matrix.sub_mul, Matrix.one_mul]
      simp only [Matrix.mul_assoc]
    have e2 : Kg * V = P * Hᵀ - Kg * (H * P * Hᵀ) := by
      rw [← hKS, Matrix.mul_add]
      abel
    rw [e1, e2]
  have hT : (1 - Kg * H)ᵀ = 1 - Hᵀ * Kgᵀ := by
    rw [transpose_sub, transpose_one, transpose_mul]
  rw [hT, Matrix.mul_sub, Matrix.mul_one, ← Matrix.mul_assoc, key]
  abel


theorem updateH_selectPosition (f : ImuGpsFusion K)
    (hHx : f.Hx_ = (ImuGpsFusion.construct f).Hx_) : f.updateH.H_ = selectPosition :=
  updateH_H f hHx

theorem simplified_position_block (P : Matrix (Fin 15) (Fin 15) K) (M : Mat3 K) :
    block3 ((1 - P * (selectPosition : Matrix (Fin 3) (Fin 15) K)ᵀ * M * selectPosition) * P)
        0 0 (by omega) (by omega)
      = block3 P 0 0 (by omega) (by omega)
        - block3 P 0 0 (by omega) (by omega) * M * block3 P 0 0 (by omega) (by omega) := by
  ext i j
  rw [Matrix.sub_mul, Matrix.one_mul, Matrix.mul_assoc]
  simp only [block3, Matrix.sub_apply, zero_add]
  congr 1
  rw [Matrix.mul_apply, Matrix.mul_apply]
  refine Finset.sum_congr rfl (fun l _ => ?_)
  rw [gain_top, selectPosition_mul]
  simp [block3]

theorem correct_position (d : Deps K) (f : ImuGpsFusion K) (gps : GpsData K)
    (hHx : f.Hx_ = (ImuGpsFusion.construct f).Hx_) :
    (f.correct d gps).no_state_.p
      = f.no_state_.p
        + (block3 f.P_ 0 0 (by omega) (by omega)
            * inverse3 (block3 f.P_ 0 0 (by omega) (by omega) + gps.cov)).mulVec
          (d.lla2enu gps.data ![f.ref_lati_, f.ref_long_, f.ref_alti_] - f.no_state_.p) := by
  have hH := updateH_selectPosition f hHx
  have hP : f.updateH.P_ = f.P_ := rfl
  have hp : f.updateH.no_state_ = f.no_state_ := rfl
  simp only [ImuGpsFusion.correct, ImuGpsFusion.updateV, vec3_eta, hH, hP, hp,
    innovation_selectPosition]
  funext i
  simp only [Pi.add_apply, slot, zero_add, Matrix.mulVec, Matrix.dotProduct]
  congr 1
  refine Finset.sum_congr rfl (fun j _ => ?_)
  rw [gain_top]

theorem toRotationMatrix_identity : (Quat.identity : Quat K).toRotationMatrix = 1 := by
  ext i j
  fin_cases i <;> fin_cases j <;>
    simp [Quat.toRotationMatrix, Quat.identity, Matrix.vecHead, Matrix.vecTail]

theorem updateNominalState_at_rest (d : Deps K) (hE : ExpZero d) (f : ImuGpsFusion K)
    (hs : f.no_state_ = freshState) (hg : f.g_ = ![0, 0, -(981 / 100)]) (a b : ImuData K)
    (ha : AtRest a) (hb : AtRest b) :
    (f.updateNominalState d a b).no_state_ = freshState := by
  have hE0 : d.getQuaFromAA 0 = Quat.identity := hE
  have hacc : (1 / 2 : K) • (b.acc + a.acc) - (0 : Vec3 K) = ![0, 0, 981 / 100] := by
    rw [ha.1, hb.1]
    funext i
    fin_cases i <;> simp
    ring
  have hsum : (1 : Mat3 K).mulVec ![0, 0, 981 / 100] + ![0, 0, -(981 / 100)] = (0 : Vec3 K) := by
    rw [Matrix.one_mulVec]
    funext i
    fin_cases i <;> simp
  simp only [ImuGpsFusion.updateNominalState, hs, freshState, hg, ha.2, hb.2,
    toRotationMatrix_identity, hacc, hsum, smul_zero, add_zero, sub_zero, hE0,
    Quat.mul_identity]

theorem imuPredict_at_rest (d : Deps K) (hE : ExpZero d) (f : ImuGpsFusion K)
    (hs : f.no_state_ = freshState) (hg : f.g_ = ![0, 0, -(981 / 100)]) (a b : ImuData K)
    (ha : AtRest a) (hb : AtRest b) :
    (f.imuPredict d a b).no_state_ = freshState ∧ (f.imuPredict d a b).g_ = f.g_ :=
  ⟨updateNominalState_at_rest d hE f hs hg a b ha hb, rfl⟩

theorem predictLoop_at_rest (d : Deps K) (hE : ExpZero d) (imus : List (ImuData K))
    (hall : ∀ s ∈ imus, AtRest s) (f : ImuGpsFusion K) (hs : f.no_state_ = freshState)
    (hg : f.g_ = ![0, 0, -(981 / 100)]) :
    (f.predictLoop d imus).no_state_ = freshState := by
  induction imus generalizing f with
  | nil => exact hs
  | cons a rest ih =>
    cases rest with
    | nil => exact hs
    | cons b rest2 =>
      simp only [ImuGpsFusion.predictLoop]
      have ha : AtRest a := hall a (List.mem_cons_self _ _)
      have hb : AtRest b := hall b (List.mem_cons_of_mem _ (List.mem_cons_self _ _))
      obtain ⟨h1, h2⟩ := imuPredict_at_rest d hE f hs hg a b ha hb
      exact ih (fun s hs => hall s (List.mem_cons_of_mem _ hs)) _ h1 (h2.trans hg)

theorem correct_zero_innovation (d : Deps K) (f : ImuGpsFusion K) (gps : GpsData K)
    (hz : d.lla2enu gps.data ![f.ref_lati_, f.ref_long_, f.ref_alti_] = f.no_state_.p) :
    (f.correct d gps).no_state_.p = f.no_state_.p
      ∧ (f.correct d gps).ac_state_.p = f.no_state_.p := by
  have hp : (f.correct d gps).ac_state_.p = f.no_state_.p := by
    simp only [ImuGpsFusion.correct, ImuGpsFusion.updateV, vec3_eta]
    have hr : f.updateH.ref_lati_ = f.ref_lati_ ∧ f.updateH.ref_long_ = f.ref_long_
        ∧ f.updateH.ref_alti_ = f.ref_alti_ ∧ f.updateH.no_state_ = f.no_state_ :=
      ⟨rfl, rfl, rfl, rfl⟩
    funext i
    simp [hz, slot, ImuGpsFusion.updateH]
  exact ⟨hp, hp⟩


theorem calcF_Fx_congr (d : Deps K) (f g : ImuGpsFusion K) (s t : ImuData K) (dt : K)
    (h : f.no_state_ = g.no_state_) (ha : s.acc = t.acc) (hw : s.gyr = t.gyr) :
    (f.calcF d s dt).Fx_ = (g.calcF d t dt).Fx_ := by
  simp only [ImuGpsFusion.calcF, h, ha, hw]

theorem isSymPSD_diag_nonneg {n : ℕ} {A : Matrix (Fin n) (Fin n) K} (hA : IsSymPSD A)
    (i : Fin n) : 0 ≤ A i i := by
  have h := hA.2 (Pi.single i 1)
  simpa [Matrix.mulVec_single] using h

theorem feed_invariant (d : Deps K) (hE : ExpZero d) (f0 : ImuGpsFusion K)
    (hs : f0.no_state_ = freshState) (hg : f0.g_ = ![0, 0, -(981 / 100)])
    (s : ℕ → ImuData K) (hrest : ∀ k, AtRest (s k)) (k : ℕ) :
    (feed d f0 s k).no_state_ = freshState ∧ SameConfig (feed d f0 s k) f0 := by
  induction k with
  | zero => exact ⟨hs, rfl, rfl, rfl, rfl, rfl, rfl⟩
  | succ k ih =>
    obtain ⟨h1, h2⟩ := ih
    refine ⟨?_, ?_⟩
    · exact updateNominalState_at_rest d hE _ h1 (h2.1.trans hg) _ _ (hrest k) (hrest (k + 1))
    · exact h2

theorem feed_recurrence (d : Deps K) (hE : ExpZero d) (f0 : ImuGpsFusion K)
    (hs : f0.no_state_ = freshState) (hg : f0.g_ = ![0, 0, -(981 / 100)])
    (s : ℕ → ImuData K) (hrest : ∀ k, AtRest (s k)) (dt : K)
    (hdt : ∀ k, (s (k + 1)).stamp - (s k).stamp = dt) (k : ℕ) :
    (feed d f0 s (k + 1)).P_
      = (f0.calcF d (s 0) dt).Fx_ * (feed d f0 s k).P_ * (f0.calcF d (s 0) dt).Fx_ᵀ
        + f0.Fi_ * (f0.updateQ dt).Qi_ * f0.Fi_ᵀ := by
  obtain ⟨h1, h2, h3, h4, h5, h6, h7⟩ := feed_invariant d hE f0 hs hg s hrest k
  have hF : ((feed d f0 s k).imuPredict d (s k) (s (k + 1))).Fx_
      = (f0.calcF d (s 0) dt).Fx_ := by
    have e : ((feed d f0 s k).imuPredict d (s k) (s (k + 1))).Fx_
        = (((feed d f0 s k).updateNominalState d (s k) (s (k + 1))).calcF d (s (k + 1))
            ((s (k + 1)).stamp - (s k).stamp)).Fx_ := rfl
    rw [e, hdt k]
    apply calcF_Fx_congr
    · rw [updateNominalState_at_rest d hE _ h1 (h2.trans hg) _ _ (hrest k) (hrest (k + 1)), hs]
    · rw [(hrest (k + 1)).1, (hrest 0).1]
    · rw [(hrest (k + 1)).2, (hrest 0).2]
  have hQ : ((feed d f0 s k).updateQ dt).Qi_ = (f0.updateQ dt).Qi_ := by
    rw [updateQ_Qi, updateQ_Qi, h4, h5, h6, h7]
  show ((feed d f0 s k).imuPredict d (s k) (s (k + 1))).P_ = _
  rw [imuPredict_P, hF, hdt k, hQ, h3]

theorem feed_increment_psd (d : Deps K) (hE : ExpZero d) (f0 : ImuGpsFusion K)
    (hs : f0.no_state_ = freshState) (hg : f0.g_ = ![0, 0, -(981 / 100)])
    (hP : f0.P_ = 0) (hn : NoiseNonneg f0)
    (s : ℕ → ImuData K) (hrest : ∀ k, AtRest (s k)) (dt : K) (hpos : 0 ≤ dt)
    (hdt : ∀ k, (s (k + 1)).stamp - (s k).stamp = dt) (k : ℕ) :
    IsSymPSD ((feed d f0 s (k + 1)).P_ - (feed d f0 s k).P_) := by
  induction k with
  | zero =>
    rw [feed_recurrence d hE f0 hs hg s hrest dt hdt 0]
    have h0 : (feed d f0 s 0).P_ = 0 := hP
    rw [h0]
    simp only [Matrix.mul_zero, Matrix.zero_mul, zero_add, sub_zero]
    exact isSymPSD_conj _ (updateQ_Qi_psd f0 dt hn hpos)
  | succ k ih =>
    have e1 := feed_recurrence d hE f0 hs hg s hrest dt hdt (k + 1)
    have e2 := feed_recurrence d hE f0 hs hg s hrest dt hdt k
    have key : (feed d f0 s (k + 1 + 1)).P_ - (feed d f0 s (k + 1)).P_
        = (f0.calcF d (s 0) dt).Fx_ * ((feed d f0 s (k + 1)).P_ - (feed d f0 s k).P_)
            * (f0.calcF d (s 0) dt).Fx_ᵀ := by
      rw [Matrix.mul_sub, Matrix.sub_mul, eq_sub_of_add_eq e1.symm, eq_sub_of_add_eq e2.symm]
      abel
    rw [key]
    exact isSymPSD_conj _ ih

theorem feed_posTrace_mono (d : Deps K) (hE : ExpZero d) (f0 : ImuGpsFusion K)
    (hs : f0.no_state_ = freshState) (hg : f0.g_ = ![0, 0, -(981 / 100)])
    (hP : f0.P_ = 0) (hn : NoiseNonneg f0)
    (s : ℕ → ImuData K) (hrest : ∀ k, AtRest (s k)) (dt : K) (hpos : 0 ≤ dt)
    (hdt : ∀ k, (s (k + 1)).stamp - (s k).stamp = dt) (k : ℕ) :
    posTrace (feed d f0 s k).P_ ≤ posTrace (feed d f0 s (k + 1)).P_ := by
  have h := feed_increment_psd d hE f0 hs hg hP hn s hrest dt hpos hdt k
  have h0 := isSymPSD_diag_nonneg h 0
  have h1 := isSymPSD_diag_nonneg h 1
  have h2 := isSymPSD_diag_nonneg h 2
  simp only [Matrix.sub_apply] at h0 h1 h2
  simp only [posTrace]
  linarith

theorem atRestSample_spec (k : ℕ) :
    AtRest (atRestSample k : ImuData K)
      ∧ (atRestSample (k + 1) : ImuData K).stamp - (atRestSample k : ImuData K).stamp
          = 1 / 100 := by
  refine ⟨⟨rfl, rfl⟩, ?_⟩
  simp only [atRestSample]
  push_cast
  ring


theorem demoDeps_sqrtOfSquares : SqrtOfSquares demoDeps := by
  intro x hx
  simp [demoDeps, Rat.sqrt_eq, abs_of_nonneg hx]

theorem fromTwoVectors_tilt :
    fromTwoVectors demoDeps ![0, 0, 981 / 100] ![24, 0, 7] = ⟨4 / 5, 0, 3 / 5, 0⟩ := by
  have hg := normalized_gravity demoDeps demoDeps_sqrtOfSquares
  have h25 : demoDeps.sqrt 625 = 25 := by
    have e : (625 : ℚ) = 25 * 25 := by norm_num
    rw [e]
    exact demoDeps_sqrtOfSquares 25 (by norm_num)
  have h85 : demoDeps.sqrt (64 / 25) = 8 / 5 := by
    have e : (64 / 25 : ℚ) = 8 / 5 * (8 / 5) := by norm_num
    rw [e]
    exact demoDeps_sqrtOfSquares (8 / 5) (by norm_num)
  have hd : dot (![24, 0, 7] : Vec3 ℚ) ![24, 0, 7] = 625 := by
    simp [dot]
    norm_num
  have hn : normalized demoDeps.sqrt ![24, 0, 7] = ![24 / 25, 0, 7 / 25] := by
    simp only [normalized, hd, h25]
    have : (0 : ℚ) < 625 := by norm_num
    simp only [this, if_true]
    funext i
    fin_cases i <;> simp
  have hc : dot (![24 / 25, 0, 7 / 25] : Vec3 ℚ) ![0, 0, 1] = 7 / 25 := by
    simp [dot]
  have hb : ¬ ((7 / 25 : ℚ) < -1 + dummy_precision) := by norm_num [dummy_precision]
  have hs : ((1 : ℚ) + 7 / 25) * 2 = 64 / 25 := by norm_num
  simp only [fromTwoVectors, hg, hn, hc, hb, if_false, hs, h85]
  simp [cross]
  norm_num


theorem inverse3_entry_limit (S : Mat3 ℝ) (hS : S.det ≠ 0) (i j : Fin 3) :
    Filter.Tendsto (fun ε : ℝ => inverse3 (S + ε • (1 : Mat3 ℝ)) i j) (nhds 0) (nhds (inverse3 S i j)) := by
  have hD : (S 1 1 * S 2 2 - S 1 2 * S 2 1) * S 0 0 + (S 0 2 * S 2 1 - S 0 1 * S 2 2) * S 1 0
      + (S 0 1 * S 1 2 - S 0 2 * S 1 1) * S 2 0 ≠ 0 := by
    intro h0
    apply hS
    rw [Matrix.det_fin_three]
    linear_combination h0
  have h0 : inverse3 S i j = inverse3 (S + (0 : ℝ) • (1 : Mat3 ℝ)) i j := by simp
  rw [h0]
  apply ContinuousAt.tendsto
  fin_cases i <;> fin_cases j <;>
    simp [inverse3, Matrix.one_apply] <;>
    exact ContinuousAt.mul (by fun_prop) (ContinuousAt.inv₀ (by fun_prop) (by simpa using hD))


theorem demoDeps_expZero : ExpZero demoDeps := by
  simp [ExpZero, demoDeps, cayleyQuat, Quat.identity, dot]

theorem demoDeps_rotZero : RotZero demoDeps := by
  have h : cayleyQuat 0 = Quat.identity := by
    simp [cayleyQuat, Quat.identity, dot]
  simp only [RotZero, demoDeps, h]
  exact toRotationMatrix_identity

theorem predictLoop_ref (d : Deps K) (imus : List (ImuData K)) (f : ImuGpsFusion K) :
    (f.predictLoop d imus).ref_lati_ = f.ref_lati_
      ∧ (f.predictLoop d imus).ref_long_ = f.ref_long_
      ∧ (f.predictLoop d imus).ref_alti_ = f.ref_alti_ := by
  induction imus generalizing f with
  | nil => exact ⟨rfl, rfl, rfl⟩
  | cons a rest ih =>
    cases rest with
    | nil => exact ⟨rfl, rfl, rfl⟩
    | cons b rest2 =>
      simp only [ImuGpsFusion.predictLoop]
      exact ih (f.imuPredict d a b)

theorem predictLoop_Hx (d : Deps K) (imus : List (ImuData K)) (f : ImuGpsFusion K) :
    (f.predictLoop d imus).Hx_ = f.Hx_ := by
  induction imus generalizing f with
  | nil => rfl
  | cons a rest ih =>
    cases rest with
    | nil => rfl
    | cons b rest2 =>
      simp only [ImuGpsFusion.predictLoop]
      exact ih (f.imuPredict d a b)

theorem calcF_position_row (d : Deps K) (f : ImuGpsFusion K) (s : ImuData K) (dt : K)
    (r : Fin 15) (hr : r.val < 3) (k : Fin 15) :
    (f.calcF d s dt).Fx_ r k
      = if k.val = r.val then 1 else if k.val = r.val + 3 then dt else 0 := by
  have hk := k.isLt
  simp only [ImuGpsFusion.calcF, setBlock]
  split_ifs <;>
    first
    | (exfalso; omega)
    | (simp [Matrix.one_apply, Fin.ext_iff, *]; done)
    | (simp [Matrix.one_apply, Fin.ext_iff]; omega)

theorem predicted_position_block (d : Deps K) (f : ImuGpsFusion K) (s : ImuData K) (dt : K)
    (w : Fin 15 → K) :
    block3 ((f.calcF d s dt).Fx_ * diagonal w * (f.calcF d s dt).Fx_ᵀ) 0 0 (by omega) (by omega)
      = diagonal (fun i : Fin 3 =>
          w ⟨i.val, by omega⟩ + dt * dt * w ⟨i.val + 3, by omega⟩) := by
  ext i j
  have hi := i.isLt
  have hj := j.isLt
  simp only [block3, zero_add]
  rw [Matrix.mul_apply]
  simp only [Matrix.mul_diagonal, transpose_apply]
  rw [Finset.sum_eq_add (⟨i.val, by omega⟩ : Fin 15) (⟨i.val + 3, by omega⟩ : Fin 15)]
  · rw [calcF_position_row d f s dt ⟨i.val, by omega⟩ hi,
      calcF_position_row d f s dt ⟨i.val, by omega⟩ hi,
      calcF_position_row d f s dt ⟨j.val, by omega⟩ hj,
      calcF_position_row d f s dt ⟨j.val, by omega⟩ hj]
    by_cases hij : i = j
    · subst hij
      simp
      ring
    · have h1 : ¬ (i.val = j.val) := fun e => hij (Fin.ext e)
      have h2 : ¬ (i.val = j.val + 3) := by omega
      have h3 : ¬ (i.val + 3 = j.val) := by omega
      simp [hij, h1, h2, h3]
  · simp [Fin.ext_iff]
  · intro c _ hc
    rw [calcF_position_row d f s dt ⟨i.val, by omega⟩ hi]
    have h1 : ¬ (c.val = i.val) := fun e => hc.1 (Fin.ext e)
    have h2 : ¬ (c.val = i.val + 3) := fun e => hc.2 (Fin.ext e)
    simp [h1, h2]
  · intro h
    exact absurd (Finset.mem_univ _) h
  · intro h
    exact absurd (Finset.mem_univ _) h

theorem two_step_position_block (d : Deps K) (u f : ImuGpsFusion K)
    (hFi : f.Fi_ = (ImuGpsFusion.construct u).Fi_) (hP : f.P_ = 0) (a b c : ImuData K) :
    block3 ((f.imuPredict d a b).imuPredict d b c).P_ 0 0 (by omega) (by omega)
      = diagonal (fun _ : Fin 3 => (c.stamp - b.stamp) * (c.stamp - b.stamp)
          * (f.sigma_an_2_ * (b.stamp - a.stamp) * (b.stamp - a.stamp))) := by
  have hFi2 : (f.imuPredict d a b).Fi_ = (ImuGpsFusion.construct u).Fi_ := hFi
  have hFx : ((f.imuPredict d a b).imuPredict d b c).Fx_
      = (((f.imuPredict d a b).updateNominalState d b c).calcF d c (c.stamp - b.stamp)).Fx_ :=
    rfl
  have hs : (f.imuPredict d a b).sigma_an_2_ = f.sigma_an_2_ := rfl
  rw [imuPredict_P, imuPredict_P d f, hP, hFx, noise_term u f hFi,
    noise_term u (f.imuPredict d a b) hFi2]
  simp only [Matrix.mul_zero, Matrix.zero_mul, zero_add]
  have hadd : ∀ A B : Matrix (Fin 15) (Fin 15) K,
      block3 (A + B) 0 0 (by omega) (by omega)
        = block3 A 0 0 (by omega) (by omega) + block3 B 0 0 (by omega) (by omega) :=
    fun A B => rfl
  rw [hadd, predicted_position_block]
  ext i j
  have hi := i.isLt
  by_cases hij : i = j
  · subst hij
    simp [block3, hi]
  · have h1 : ¬ (i.val = j.val) := fun e => hij (Fin.ext e)
    simp [block3, hij, h1]

theorem gpsUpdate_at_rest (d : Deps K) (hE : ExpZero d) (f : ImuGpsFusion K)
    (hs : f.no_state_ = freshState) (hg : f.g_ = ![0, 0, -(981 / 100)]) (gps : GpsData K)
    (hz : d.lla2enu gps.data ![f.ref_lati_, f.ref_long_, f.ref_alti_] = 0)
    (imus : List (ImuData K)) (hlen : 3 ≤ imus.length) (hall : ∀ s ∈ imus, AtRest s) :
    (f.predictLoop d imus).no_state_.p = 0
      ∧ ∃ r, f.gpsUpdate d gps imus = Outcome.ok r ∧ r.getNominalState.p = 0
          ∧ r.getState.p = 0 := by
  have hst := predictLoop_at_rest d hE imus hall f hs hg
  have hp : (f.predictLoop d imus).no_state_.p = 0 := by
    rw [hst]
    rfl
  obtain ⟨r1, r2, r3⟩ := predictLoop_ref d imus f
  have hz2 : d.lla2enu gps.data ![(f.predictLoop d imus).ref_lati_,
      (f.predictLoop d imus).ref_long_, (f.predictLoop d imus).ref_alti_]
      = (f.predictLoop d imus).no_state_.p := by
    rw [r1, r2, r3, hz, hp]
  obtain ⟨c1, c2⟩ := correct_zero_innovation d (f.predictLoop d imus) gps hz2
  have hl : imus.length > 2 := hlen
  refine ⟨hp, (f.predictLoop d imus).correct d gps, ?_, ?_, ?_⟩
  · simp only [ImuGpsFusion.gpsUpdate, hl, if_true]
  · exact c1.trans hp
  · exact c2.trans hp

theorem atRest_range :
    ∀ s ∈ (List.range 100).map (atRestSample : ℕ → ImuData ℚ), AtRest s := by
  intro s hs
  obtain ⟨k, _, rfl⟩ := List.mem_map.1 hs
  exact (atRestSample_spec k).1

end Lemmas

section Claims

variable {K : Type} [LinearOrderedField K]

/-- C2: `updateNominalState` advances position by `v·dt + ½·(R(q)·(ā − a_b) + g)·dt²` with the
pre-update velocity, velocity by `(R(q)·(ā − a_b) + g)·dt`, orientation to
`q ⊗ Exp((ω̄ − w_b)·dt)`, with `ā`, `ω̄` the averages of the two samples and
`g = (0, 0, −9.81)`; both biases are unchanged. -/
theorem updateNominalState_formulas (d : Deps K) (f : ImuGpsFusion K) (s1 s2 : ImuData K)
    (hg : f.g_ = ![0, 0, -(981 / 100)]) :
    let dt := s2.stamp - s1.stamp
    let abar : Vec3 K := fun i => (s1.acc i + s2.acc i) / 2
    let wbar : Vec3 K := fun i => (s1.gyr i + s2.gyr i) / 2
    let x := f.no_state_
    let g : Vec3 K := ![0, 0, -(981 / 100)]
    let acc : Vec3 K := x.q.toRotationMatrix.mulVec (abar - x.a_b) + g
    let y := (f.updateNominalState d s1 s2).no_state_
    (∀ i, y.p i = x.p i + x.v i * dt + 1 / 2 * acc i * dt ^ 2)
      ∧ (∀ i, y.v i = x.v i + acc i * dt)
      ∧ y.q = x.q.mul (d.getQuaFromAA (fun i => (wbar i - x.w_b i) * dt))
      ∧ y.a_b = x.a_b ∧ y.w_b = x.w_b := by
  have h := updateNominalState_general d f s1 s2
  rw [hg] at h
  exact h

/-- Witness for C2 on the freshly constructed filter. -/
theorem updateNominalState_formulas_witness :
    (ImuGpsFusion.construct (rawFilter ℚ)).g_ = ![0, 0, -(981 / 100)]
      ∧ ((ImuGpsFusion.construct (rawFilter ℚ)).updateNominalState demoDeps
          ⟨0, ![0, 0, 1], ![1, 0, 0]⟩ ⟨1, ![0, 2, 1], ![0, 1, 0]⟩).no_state_.w_b
        = (ImuGpsFusion.construct (rawFilter ℚ)).no_state_.w_b :=
  ⟨rfl, (updateNominalState_formulas demoDeps (ImuGpsFusion.construct (rawFilter ℚ))
    ⟨0, ![0, 0, 1], ![1, 0, 0]⟩ ⟨1, ![0, 2, 1], ![0, 1, 0]⟩ rfl).2.2.2.2⟩

/-- C1: with at least three samples and an invertible innovation covariance `H·P·Hᵗ + V` (its
determinant is not zero, which is what the inverse in the gain asks), `gpsUpdate` completes and
leaves the accepted and the nominal state both equal to the injected state: with `(x, P)` the
result of `imuPredict` over the consecutive pairs of samples, `z` the converter image of the fix
under the configured reference, `K = P·Hᵗ·(H·P·Hᵗ + V)⁻¹` and `dX = K·(z − x.p)`, position,
velocity and biases add their slots of `dX` and orientation is `x.q ⊗ Exp(dX[6..8])`.  The
inverse is Eigen's 3×3 `inverse()`, here the two-sided inverse of `H·P·Hᵗ + V`. -/
theorem gpsUpdate_injects (d : Deps K) (f : ImuGpsFusion K) (gps : GpsData K)
    (imus : List (ImuData K)) (h : 3 ≤ imus.length)
    (hS : (f.innovationCov d gps imus).det ≠ 0) :
    let fp := (imus.zip imus.tail).foldl (fun g ab => g.imuPredict d ab.1 ab.2) f
    let x := fp.no_state_
    let P := fp.P_
    let H := fp.updateH.H_
    let V := gps.cov
    let z := d.lla2enu gps.data ![f.ref_lati_, f.ref_long_, f.ref_alti_]
    let Kg := P * Hᵀ * inverse3 (H * P * Hᵀ + V)
    let dX : Fin 15 → K := Kg.mulVec (z - x.p)
    let inj : State K :=
      { p := fun i => x.p i + dX ⟨i.val, by omega⟩
        v := fun i => x.v i + dX ⟨3 + i.val, by omega⟩
        q := x.q.mul (d.getQuaFromAA (fun i => dX ⟨6 + i.val, by omega⟩))
        a_b := fun i => x.a_b i + dX ⟨9 + i.val, by omega⟩
        w_b := fun i => x.w_b i + dX ⟨12 + i.val, by omega⟩ }
    (∃ r, f.gpsUpdate d gps imus = Outcome.ok r ∧ r.getState = inj ∧ r.getNominalState = inj)
      ∧ H * P * Hᵀ + V = f.innovationCov d gps imus
      ∧ inverse3 (H * P * Hᵀ + V) * (H * P * Hᵀ + V) = 1
      ∧ (H * P * Hᵀ + V) * inverse3 (H * P * Hᵀ + V) = 1 := by
  intro fp x P H V z Kg dX inj
  have hcov : H * P * Hᵀ + V = f.innovationCov d gps imus := by
    simp only [ImuGpsFusion.innovationCov, predictLoop_eq_foldl, H, P, V, fp]
  refine ⟨?_, hcov, inverse3_mul _ (by rw [hcov]; exact hS)⟩
  have hlen : imus.length > 2 := h
  have href : ∀ g : ImuGpsFusion K, g.ref_lati_ = f.ref_lati_ ∧ g.ref_long_ = f.ref_long_
      ∧ g.ref_alti_ = f.ref_alti_ →
      ∀ l : List (ImuData K × ImuData K),
        let r := l.foldl (fun g ab => g.imuPredict d ab.1 ab.2) g
        r.ref_lati_ = f.ref_lati_ ∧ r.ref_long_ = f.ref_long_ ∧ r.ref_alti_ = f.ref_alti_ := by
    intro g hg l
    induction l generalizing g with
    | nil => exact hg
    | cons ab l ih => exact ih _ hg
  obtain ⟨h1, h2, h3⟩ := href f ⟨rfl, rfl, rfl⟩ (imus.zip imus.tail)
  refine ⟨(f.predictLoop d imus).correct d gps, ?_, ?_⟩
  · simp only [ImuGpsFusion.gpsUpdate, hlen, if_true]
  · have hst : ((f.predictLoop d imus).correct d gps).ac_state_ = inj := by
      rw [predictLoop_eq_foldl]
      simp only [ImuGpsFusion.correct, ImuGpsFusion.updateV, vec3_eta, h1, h2, h3]
      simp only [inj, State.mk.injEq]
      refine ⟨?_, ?_, ?_, ?_, ?_⟩
      · funext i
        simp [slot, dX, Kg, P, H, V, z, x, fp, ImuGpsFusion.updateH]
      · rfl
      · funext i
        simp [slot, dX, Kg, P, H, V, z, x, fp, ImuGpsFusion.updateH, add_comm]
      · funext i
        simp [slot, dX, Kg, P, H, V, z, x, fp, ImuGpsFusion.updateH, add_comm]
      · funext i
        simp [slot, dX, Kg, P, H, V, z, x, fp, ImuGpsFusion.updateH, add_comm]
    exact ⟨hst, hst⟩

/-- Witness for C1 over `ℚ`: unit noise parameters and three samples at rest one second apart
give position covariance `I` at the fix, so with fix covariance `I` the gain on the position is
`I/2`: the predicted position `0` moves half-way to the fix `(1, 2, 3)`. -/
theorem gpsUpdate_injects_witness :
    (((ImuGpsFusion.construct (rawFilter ℚ)).cfgImuVar 1 1 1 1).innovationCov demoDeps
        ⟨2, ![1, 2, 3], 1⟩
        [⟨0, ![0, 0, 981 / 100], 0⟩, ⟨1, ![0, 0, 981 / 100], 0⟩,
          ⟨2, ![0, 0, 981 / 100], 0⟩]).det ≠ 0
      ∧ (((ImuGpsFusion.construct (rawFilter ℚ)).cfgImuVar 1 1 1 1).predictLoop demoDeps
          [⟨0, ![0, 0, 981 / 100], 0⟩, ⟨1, ![0, 0, 981 / 100], 0⟩,
            ⟨2, ![0, 0, 981 / 100], 0⟩]).no_state_.p = 0
      ∧ ∃ r, ((ImuGpsFusion.construct (rawFilter ℚ)).cfgImuVar 1 1 1 1).gpsUpdate demoDeps
            ⟨2, ![1, 2, 3], 1⟩
            [⟨0, ![0, 0, 981 / 100], 0⟩, ⟨1, ![0, 0, 981 / 100], 0⟩,
              ⟨2, ![0, 0, 981 / 100], 0⟩] = Outcome.ok r
          ∧ r.getState = r.getNominalState ∧ r.getState.p = ![1 / 2, 1, 3 / 2] := by
  have hS : (((ImuGpsFusion.construct (rawFilter ℚ)).cfgImuVar 1 1 1 1).innovationCov demoDeps
      ⟨2, ![1, 2, 3], 1⟩
      [⟨0, ![0, 0, 981 / 100], 0⟩, ⟨1, ![0, 0, 981 / 100], 0⟩,
        ⟨2, ![0, 0, 981 / 100], 0⟩]).det ≠ 0 :=
    det_psd_add_ne_zero _ (isSymPSD_conj _ (predictLoop_psd demoDeps _ _ isSymPSD_zero
      (by simp [NoiseNonneg, ImuGpsFusion.cfgImuVar]) (by simp [StampsOrdered])))
  obtain ⟨⟨r, h1, h2, h3⟩, _⟩ := gpsUpdate_injects demoDeps
    ((ImuGpsFusion.construct (rawFilter ℚ)).cfgImuVar 1 1 1 1) ⟨2, ![1, 2, 3], 1⟩
    [⟨0, ![0, 0, 981 / 100], 0⟩, ⟨1, ![0, 0, 981 / 100], 0⟩, ⟨2, ![0, 0, 981 / 100], 0⟩]
    (by decide) hS
  have hfresh := predictLoop_at_rest demoDeps demoDeps_expZero
    [⟨0, ![0, 0, 981 / 100], 0⟩, ⟨1, ![0, 0, 981 / 100], 0⟩, ⟨2, ![0, 0, 981 / 100], 0⟩]
    (by
      intro s hs
      simp only [List.mem_cons, List.mem_singleton, List.not_mem_nil, or_false] at hs
      rcases hs with rfl | rfl | rfl <;> exact ⟨rfl, rfl⟩)
    ((ImuGpsFusion.construct (rawFilter ℚ)).cfgImuVar 1 1 1 1) rfl rfl
  have hp0 : (((ImuGpsFusion.construct (rawFilter ℚ)).cfgImuVar 1 1 1 1).predictLoop demoDeps
      [⟨0, ![0, 0, 981 / 100], 0⟩, ⟨1, ![0, 0, 981 / 100], 0⟩,
        ⟨2, ![0, 0, 981 / 100], 0⟩]).no_state_.p = 0 := by
    rw [hfresh]
    rfl
  refine ⟨hS, hp0, r, h1, h2.trans h3.symm, ?_⟩
  have hr : (((ImuGpsFusion.construct (rawFilter ℚ)).cfgImuVar 1 1 1 1).predictLoop demoDeps
      [⟨0, ![0, 0, 981 / 100], 0⟩, ⟨1, ![0, 0, 981 / 100], 0⟩,
        ⟨2, ![0, 0, 981 / 100], 0⟩]).correct demoDeps ⟨2, ![1, 2, 3], 1⟩ = r := by
    simpa [ImuGpsFusion.gpsUpdate] using h1
  have hblock := two_step_position_block demoDeps (rawFilter ℚ)
    ((ImuGpsFusion.construct (rawFilter ℚ)).cfgImuVar 1 1 1 1) rfl rfl
    ⟨0, ![0, 0, 981 / 100], 0⟩ ⟨1, ![0, 0, 981 / 100], 0⟩ ⟨2, ![0, 0, 981 / 100], 0⟩
  have hpos := correct_position demoDeps
    (((ImuGpsFusion.construct (rawFilter ℚ)).cfgImuVar 1 1 1 1).predictLoop demoDeps
      [⟨0, ![0, 0, 981 / 100], 0⟩, ⟨1, ![0, 0, 981 / 100], 0⟩, ⟨2, ![0, 0, 981 / 100], 0⟩])
    ⟨2, ![1, 2, 3], 1⟩ (by
      rw [predictLoop_Hx, construct_Hx]
      exact construct_Hx (rawFilter ℚ))
  rw [← hr]
  show (((((ImuGpsFusion.construct (rawFilter ℚ)).cfgImuVar 1 1 1 1).predictLoop demoDeps
      [⟨0, ![0, 0, 981 / 100], 0⟩, ⟨1, ![0, 0, 981 / 100], 0⟩,
        ⟨2, ![0, 0, 981 / 100], 0⟩]).correct demoDeps ⟨2, ![1, 2, 3], 1⟩).no_state_.p
      = ![1 / 2, 1, 3 / 2])
  obtain ⟨r1, r2, r3⟩ := predictLoop_ref demoDeps
    [⟨0, ![0, 0, 981 / 100], 0⟩, ⟨1, ![0, 0, 981 / 100], 0⟩, ⟨2, ![0, 0, 981 / 100], 0⟩]
    ((ImuGpsFusion.construct (rawFilter ℚ)).cfgImuVar 1 1 1 1)
  rw [hpos, hp0, r1, r2, r3]
  simp only [ImuGpsFusion.predictLoop]
  rw [hblock]
  funext i
  fin_cases i <;>
    simp [ImuGpsFusion.cfgImuVar, ImuGpsFusion.construct, rawFilter, demoDeps, inverse3,
      Matrix.mulVec, Matrix.dotProduct, Fin.sum_univ_succ, Matrix.one_apply, diagonal_apply] <;>
    norm_num

/-- C4: the orientation quaternion of the nominal and of the accepted state has unit norm at
construction and after `imuInit` on a batch with non-zero mean specific force, and keeps unit
norm through `updateNominalState`, `imuPredict` and `gpsUpdate` whenever it had unit norm before
the call: for every sample, and for every fix whose innovation covariance is invertible (a
completed `gpsUpdate`) or whose sample list is too short (an aborted one).  Unit norm is stated
as squared norm one.  The outside functions enter through their contracts: `getQuaFromAA`
returns unit quaternions, and for `imuInit` the square root is exact and the singular vector of
`FromTwoVectors` is a unit vector. -/
theorem orientation_unit_norm (d : Deps K) (hExp : ExpUnit d)
    (f : ImuGpsFusion K) (hno : f.no_state_.q.normSq = 1) (hac : f.ac_state_.q.normSq = 1) :
    (∀ u : ImuGpsFusion K, (ImuGpsFusion.construct u).no_state_.q.normSq = 1
        ∧ (ImuGpsFusion.construct u).ac_state_.q.normSq = 1)
      ∧ (∀ (g : ImuGpsFusion K) (imus : List (ImuData K)), SqrtExact d →
          g.g_ = ![0, 0, -(981 / 100)] → mean (imus.map ImuData.acc) ≠ 0 →
          SvdAxisUnit d ![0, 0, 981 / 100] (mean (imus.map ImuData.acc)) →
          (g.imuInit d imus).no_state_.q.normSq = 1
            ∧ (g.imuInit d imus).ac_state_.q.normSq = 1)
      ∧ (∀ s1 s2, (f.updateNominalState d s1 s2).no_state_.q.normSq = 1
          ∧ (f.updateNominalState d s1 s2).ac_state_.q.normSq = 1)
      ∧ (∀ s1 s2, (f.imuPredict d s1 s2).no_state_.q.normSq = 1
          ∧ (f.imuPredict d s1 s2).ac_state_.q.normSq = 1)
      ∧ (∀ gps imus r, f.gpsUpdate d gps imus = Outcome.ok r →
          (f.innovationCov d gps imus).det ≠ 0 →
          r.no_state_.q.normSq = 1 ∧ r.ac_state_.q.normSq = 1)
      ∧ (∀ gps imus r, f.gpsUpdate d gps imus = Outcome.abort r →
          r.no_state_.q.normSq = 1 ∧ r.ac_state_.q.normSq = 1) := by
  have hstep : ∀ s1 s2, (f.updateNominalState d s1 s2).no_state_.q.normSq = 1 := by
    intro s1 s2
    rw [updateNominalState_q, Quat.normSq_mul, hno, hExp, mul_one]
  refine ⟨?_, ?_, ?_, ?_, ?_, ?_⟩
  · intro u
    constructor <;> simp [ImuGpsFusion.construct, Quat.identity, Quat.normSq]
  · intro g imus hsqrt hg hm hsvd
    obtain ⟨h1, h2⟩ := imuInit_fields d g imus
    have hq : (g.imuInit d imus).no_state_.q.normSq = 1 := by
      rw [h1, hg, neg_gravity]
      exact fromTwoVectors_gravity_unit d hsqrt _ hm hsvd
    exact ⟨hq, by rw [h2]; exact hq⟩
  · intro s1 s2
    exact ⟨hstep s1 s2, hac⟩
  · intro s1 s2
    exact ⟨hstep s1 s2, hac⟩
  · intro gps imus r hr _
    by_cases hlen : imus.length > 2
    · simp only [ImuGpsFusion.gpsUpdate, hlen, if_true, Outcome.ok.injEq] at hr
      obtain ⟨hna, v, hq⟩ := correct_states d (f.predictLoop d imus) gps
      have hacq : r.ac_state_.q.normSq = 1 := by
        rw [← hr, hq, Quat.normSq_mul, predictLoop_q_unit d hExp imus f hno, hExp, mul_one]
      refine ⟨?_, hacq⟩
      rw [← hr, hna, hr]
      exact hacq
    · simp only [ImuGpsFusion.gpsUpdate, hlen, if_false, reduceCtorEq] at hr
  · intro gps imus r hr
    by_cases hlen : imus.length > 2
    · simp only [ImuGpsFusion.gpsUpdate, hlen, if_true, reduceCtorEq] at hr
    · simp only [ImuGpsFusion.gpsUpdate, hlen, if_false, Outcome.abort.injEq] at hr
      rw [← hr]
      exact ⟨hno, hac⟩

/-- Witness for C4 over `ℚ` with the rational exponential map: a completed `gpsUpdate` with
non-zero noise parameters, rotating samples and a fix away from the prediction. -/
theorem orientation_unit_norm_witness :
    ((ImuGpsFusion.construct (rawFilter ℚ)).cfgImuVar 1 1 1 1).no_state_.q.normSq = 1
      ∧ (((ImuGpsFusion.construct (rawFilter ℚ)).cfgImuVar 1 1 1 1).innovationCov demoDeps
          ⟨2, ![1, 2, 3], 1⟩
          [⟨0, ![0, 0, 1], ![1, 2, 3]⟩, ⟨1, ![0, 1, 1], ![3, 2, 1]⟩,
            ⟨2, ![1, 0, 1], ![0, 1, 0]⟩]).det ≠ 0
      ∧ ((((ImuGpsFusion.construct (rawFilter ℚ)).cfgImuVar 1 1 1 1).predictLoop demoDeps
          [⟨0, ![0, 0, 1], ![1, 2, 3]⟩, ⟨1, ![0, 1, 1], ![3, 2, 1]⟩,
            ⟨2, ![1, 0, 1], ![0, 1, 0]⟩]).correct demoDeps
          ⟨2, ![1, 2, 3], 1⟩).no_state_.q.normSq = 1 := by
  have hq : ((ImuGpsFusion.construct (rawFilter ℚ)).cfgImuVar 1 1 1 1).no_state_.q.normSq
      = 1 := by
    simp [ImuGpsFusion.construct, ImuGpsFusion.cfgImuVar, Quat.identity, Quat.normSq]
  have hS : (((ImuGpsFusion.construct (rawFilter ℚ)).cfgImuVar 1 1 1 1).innovationCov demoDeps
      ⟨2, ![1, 2, 3], 1⟩
      [⟨0, ![0, 0, 1], ![1, 2, 3]⟩, ⟨1, ![0, 1, 1], ![3, 2, 1]⟩,
        ⟨2, ![1, 0, 1], ![0, 1, 0]⟩]).det ≠ 0 :=
    det_psd_add_ne_zero _ (isSymPSD_conj _ (predictLoop_psd demoDeps _ _ isSymPSD_zero
      (by simp [NoiseNonneg, ImuGpsFusion.cfgImuVar]) (by simp [StampsOrdered])))
  exact ⟨hq, hS, ((orientation_unit_norm demoDeps cayleyQuat_normSq
    ((ImuGpsFusion.construct (rawFilter ℚ)).cfgImuVar 1 1 1 1) hq hq).2.2.2.2.1
    ⟨2, ![1, 2, 3], 1⟩
    [⟨0, ![0, 0, 1], ![1, 2, 3]⟩, ⟨1, ![0, 1, 1], ![3, 2, 1]⟩, ⟨2, ![1, 0, 1], ![0, 1, 0]⟩]
    _ (by simp [ImuGpsFusion.gpsUpdate]) hS).1⟩

/-- C3: in every object reachable from construction (where `P = 0`) by calls of the member
functions, with non-negative noise parameters, non-negative time deltas, symmetric positive
semi-definite fix covariances and an invertible innovation covariance at every predict and
correct call, the covariance `P` is symmetric and positive semi-definite. -/
theorem covariance_sym_psd (d : Deps K) (f : ImuGpsFusion K) (h : Reachable d f) :
    IsSymPSD f.P_ := by
  induction h with
  | construct u => exact isSymPSD_zero
  | cfgImuVar a b c e _ ih => exact ih
  | cfgRefGps a b c _ ih => exact ih
  | imuInit imus _ ih => exact ih
  | recoverState S _ ih => exact ih
  | imuPredict s1 s2 _ hf hdt ih => exact imuPredict_psd d _ s1 s2 ih hf hdt
  | gpsUpdate gps imus r _ hf ho hV _ hr ih =>
    by_cases hlen : imus.length > 2
    · simp only [ImuGpsFusion.gpsUpdate, hlen, if_true, Outcome.ok.injEq] at hr
      rw [← hr]
      exact correct_psd d _ gps (predictLoop_psd d imus _ ih hf ho) hV
    · simp only [ImuGpsFusion.gpsUpdate, hlen, if_false, reduceCtorEq] at hr

/-- Witness for C3: construction, configuration, then a correction over three samples. -/
theorem covariance_sym_psd_witness :
    IsSymPSD ((((ImuGpsFusion.construct (rawFilter ℚ)).cfgImuVar 1 2 3 4).predictLoop demoDeps
      [⟨0, ![0, 0, 1], 0⟩, ⟨1, ![0, 0, 1], 0⟩, ⟨2, ![0, 0, 1], 0⟩]).correct demoDeps
      ⟨2, ![1, 2, 3], 1⟩).P_ :=
  covariance_sym_psd demoDeps _
    (Reachable.gpsUpdate ⟨2, ![1, 2, 3], 1⟩
      [⟨0, ![0, 0, 1], 0⟩, ⟨1, ![0, 0, 1], 0⟩, ⟨2, ![0, 0, 1], 0⟩] _
      (Reachable.cfgImuVar 1 2 3 4 (Reachable.construct (rawFilter ℚ)))
      (by simp [NoiseNonneg, ImuGpsFusion.cfgImuVar])
      (by simp [StampsOrdered])
      (by
        show IsSymPSD (1 : Mat3 ℚ)
        rw [← diagonal_one]
        exact isSymPSD_diagonal _ (fun _ => zero_le_one))
      (det_psd_add_ne_zero _ (isSymPSD_conj _ (predictLoop_psd demoDeps _ _ isSymPSD_zero
        (by simp [NoiseNonneg, ImuGpsFusion.cfgImuVar]) (by simp [StampsOrdered]))))
      (by simp [ImuGpsFusion.gpsUpdate]))

/-- C5: `gpsUpdate` with fewer than three samples aborts on the assertion with the object
(nominal state, accepted state, covariance and all other members) exactly as before the call;
with three or more samples it does not abort. -/
theorem gpsUpdate_precondition (d : Deps K) (f : ImuGpsFusion K) (gps : GpsData K)
    (imus : List (ImuData K)) :
    (imus.length < 3 → f.gpsUpdate d gps imus = Outcome.abort f)
      ∧ (3 ≤ imus.length → ∃ r, f.gpsUpdate d gps imus = Outcome.ok r) := by
  constructor
  · intro h
    have hlen : ¬ imus.length > 2 := by omega
    simp only [ImuGpsFusion.gpsUpdate, hlen, if_false]
  · intro h
    have hlen : imus.length > 2 := h
    exact ⟨(f.predictLoop d imus).correct d gps,
      by simp only [ImuGpsFusion.gpsUpdate, hlen, if_true]⟩

/-- Witness for C5: two samples abort with the object untouched, three samples do not abort. -/
theorem gpsUpdate_precondition_witness :
    (ImuGpsFusion.construct (rawFilter ℚ)).gpsUpdate demoDeps ⟨2, ![1, 2, 3], 1⟩
        [⟨0, ![0, 0, 1], 0⟩, ⟨1, ![0, 0, 1], 0⟩] = Outcome.abort (ImuGpsFusion.construct (rawFilter ℚ))
      ∧ ∃ r, (ImuGpsFusion.construct (rawFilter ℚ)).gpsUpdate demoDeps ⟨2, ![1, 2, 3], 1⟩
        [⟨0, ![0, 0, 1], 0⟩, ⟨1, ![0, 0, 1], 0⟩, ⟨2, ![0, 0, 1], 0⟩] = Outcome.ok r :=
  ⟨(gpsUpdate_precondition demoDeps _ _ _).1 (by decide),
   (gpsUpdate_precondition demoDeps _ _ _).2 (by decide)⟩

/-- C8 (amended): for a non-empty batch with non-zero mean specific force `m`, `imuInit` sets
the gyroscope bias to the mean angular rate, the orientation to `FromTwoVectors(−g, m)`, a unit
quaternion, the accelerometer bias to `m + q·g`, leaves position and velocity unchanged and makes
the accepted state equal to the nominal state; the orientation rotates `−g = (0, 0, 9.81)` onto
`9.81·m/|m|` unless `m` is nearly but not exactly opposite to `−g` (cosine of the angle below
`−1 + 1e-12` and not `−1`).  Of the singular vector only what the decomposition fixes is used:
it is a unit vector orthogonal to both inputs. -/
theorem imuInit_alignment (d : Deps K) (hsqrt : SqrtExact d) (f : ImuGpsFusion K)
    (hg : f.g_ = ![0, 0, -(981 / 100)]) (imus : List (ImuData K)) (hne : imus ≠ [])
    (hm : mean (imus.map ImuData.acc) ≠ 0)
    (hsvd : SvdAxisNull d ![0, 0, 981 / 100] (mean (imus.map ImuData.acc))) :
    let m := mean (imus.map ImuData.acc)
    let r := f.imuInit d imus
    let q := r.no_state_.q
    r.no_state_.w_b = mean (imus.map ImuData.gyr)
      ∧ q = fromTwoVectors d ![0, 0, 981 / 100] m
      ∧ q.normSq = 1
      ∧ (¬ NearlyOpposite d ![0, 0, 981 / 100] m →
          q.rotate ![0, 0, 981 / 100] = (fun i => 981 / 100 * (m i / d.sqrt (dot m m))))
      ∧ r.no_state_.a_b = (fun i => m i + q.rotate ![0, 0, -(981 / 100)] i)
      ∧ r.no_state_.p = f.no_state_.p ∧ r.no_state_.v = f.no_state_.v
      ∧ r.ac_state_ = r.no_state_ := by
  intro m r q
  have _ := hne
  obtain ⟨h1, h2⟩ := imuInit_fields d f imus
  rw [hg, neg_gravity] at h1
  obtain ⟨hn, hr⟩ := fromTwoVectors_gravity d hsqrt _ hm hsvd
  have hq : q = fromTwoVectors d ![0, 0, 981 / 100] m := by
    simp only [q, r, h1]
  refine ⟨?_, hq, ?_, ?_, ?_, ?_, ?_, h2⟩
  · simp only [r, h1]
  · rw [hq]
    exact hn
  · rw [hq]
    exact hr
  · rw [hq]
    simp only [r, h1]
    funext i
    simp only [Pi.add_apply, m]
    ring
  · simp only [r, h1]
  · simp only [r, h1]

/-- C9: for a non-empty batch in which every sample has specific force `(0, 0, 9.81)` and zero
angular rate, `imuInit` yields zero accelerometer bias, zero gyroscope bias and the identity
orientation, in the nominal and in the accepted state. -/
theorem imuInit_vertical (d : Deps K) (hsqrt : SqrtOfSquares d) (f : ImuGpsFusion K)
    (hg : f.g_ = ![0, 0, -(981 / 100)]) (imus : List (ImuData K)) (hne : imus ≠ [])
    (hall : ∀ s ∈ imus, s.acc = ![0, 0, 981 / 100] ∧ s.gyr = 0) :
    let r := f.imuInit d imus
    (r.no_state_.a_b = 0 ∧ r.no_state_.w_b = 0 ∧ r.no_state_.q = Quat.identity)
      ∧ (r.ac_state_.a_b = 0 ∧ r.ac_state_.w_b = 0 ∧ r.ac_state_.q = Quat.identity) := by
  intro r
  obtain ⟨h1, h2⟩ := imuInit_fields d f imus
  have hne2 : ∀ g : ImuData K → Vec3 K, imus.map g ≠ [] := by
    intro g h
    exact hne (List.map_eq_nil_iff.1 h)
  have hacc : mean (imus.map ImuData.acc) = ![0, 0, 981 / 100] := by
    apply mean_const _ _ (hne2 _)
    intro x hx
    obtain ⟨s, hs, rfl⟩ := List.mem_map.1 hx
    exact (hall s hs).1
  have hgyr : mean (imus.map ImuData.gyr) = 0 := by
    apply mean_const _ _ (hne2 _)
    intro x hx
    obtain ⟨s, hs, rfl⟩ := List.mem_map.1 hx
    exact (hall s hs).2
  rw [hg, neg_gravity, hacc, hgyr, fromTwoVectors_vertical d hsqrt, rotate_identity] at h1
  have hab : (![0, 0, -(981 / 100)] : Vec3 K) + ![0, 0, 981 / 100] = 0 := by
    funext i
    fin_cases i <;> simp
  rw [hab] at h1
  have key : r.no_state_.a_b = 0 ∧ r.no_state_.w_b = 0 ∧ r.no_state_.q = Quat.identity := by
    simp only [r, h1, and_self]
  refine ⟨key, ?_⟩
  simp only [r, h2]
  exact key

/-- Witness for the amended C8 over `ℝ` with the real square root: a batch of two different
samples with mean specific force `(24, 0, 7)`, tilted away from the vertical, for which
`FromTwoVectors` takes its main branch. -/
theorem imuInit_alignment_witness :
    ((ImuGpsFusion.construct (rawFilter ℝ)).imuInit
        (⟨Real.sqrt, fun _ _ => ![1, 0, 0], fun _ => Quat.identity, fun _ => 1,
          fun _ => 0, fun a _ => a⟩ : Deps ℝ)
        [⟨0, ![20, 0, 10], ![1, 2, 3]⟩, ⟨1, ![28, 0, 4], ![3, 2, 1]⟩]).no_state_.q.rotate
        ![0, 0, 981 / 100]
      = ![981 / 100 * (24 / 25), 0, 981 / 100 * (7 / 25)] := by
  have hsq : SqrtExact (⟨Real.sqrt, fun _ _ => ![1, 0, 0], fun _ => Quat.identity, fun _ => 1,
      fun _ => 0, fun a _ => a⟩ : Deps ℝ) :=
    fun x hx => ⟨Real.sqrt_nonneg x, Real.mul_self_sqrt hx⟩
  have hmean : mean (List.map ImuData.acc
      [(⟨0, ![20, 0, 10], ![1, 2, 3]⟩ : ImuData ℝ), ⟨1, ![28, 0, 4], ![3, 2, 1]⟩])
      = ![24, 0, 7] := by
    funext i
    fin_cases i <;> simp [mean] <;> norm_num
  have hm : (![24, 0, 7] : Vec3 ℝ) ≠ 0 := by
    intro h
    have := congrFun h 2
    simp at this
  have hd : dot (![24, 0, 7] : Vec3 ℝ) ![24, 0, 7] = 625 := by
    simp [dot]
    norm_num
  have h25 : Real.sqrt 625 = 25 := by
    have e : (625 : ℝ) = 25 * 25 := by norm_num
    rw [e]
    exact Real.sqrt_mul_self (by norm_num)
  have hn : normalized Real.sqrt (![24, 0, 7] : Vec3 ℝ) = ![24 / 25, 0, 7 / 25] := by
    have h := (normalized_unit _ hsq (![24, 0, 7] : Vec3 ℝ) hm).1
    rw [h]
    funext i
    fin_cases i <;> simp [hd, h25]
  have hcos : ¬ (dot (![24 / 25, 0, 7 / 25] : Vec3 ℝ) ![0, 0, 1] < -1 + dummy_precision) := by
    simp [dot]
    norm_num [dummy_precision]
  have hsvd : SvdAxisNull (⟨Real.sqrt, fun _ _ => ![1, 0, 0], fun _ => Quat.identity,
      fun _ => 1, fun _ => 0, fun a _ => a⟩ : Deps ℝ) ![0, 0, 981 / 100]
      (mean (List.map ImuData.acc
        [(⟨0, ![20, 0, 10], ![1, 2, 3]⟩ : ImuData ℝ), ⟨1, ![28, 0, 4], ![3, 2, 1]⟩])) := by
    rw [hmean]
    simp only [SvdAxisNull]
    rw [normalized_gravity _ hsq.ofSquares, hn]
    intro h
    exact absurd h hcos
  have hno : ¬ NearlyOpposite (⟨Real.sqrt, fun _ _ => ![1, 0, 0], fun _ => Quat.identity,
      fun _ => 1, fun _ => 0, fun a _ => a⟩ : Deps ℝ) ![0, 0, 981 / 100]
      (mean (List.map ImuData.acc
        [(⟨0, ![20, 0, 10], ![1, 2, 3]⟩ : ImuData ℝ), ⟨1, ![28, 0, 4], ![3, 2, 1]⟩])) := by
    rw [hmean]
    simp only [NearlyOpposite]
    rw [normalized_gravity _ hsq.ofSquares, hn]
    intro h
    exact hcos h.1
  have key := (imuInit_alignment _ hsq (ImuGpsFusion.construct (rawFilter ℝ)) rfl
    [⟨0, ![20, 0, 10], ![1, 2, 3]⟩, ⟨1, ![28, 0, 4], ![3, 2, 1]⟩] (by simp)
    (by rw [hmean]; exact hm) hsvd).2.2.2.1 hno
  rw [key, hmean, hd]
  dsimp only
  rw [h25]
  funext i
  fin_cases i <;> simp

/-- C8 (counterexample): a batch whose mean specific force `(0, −2αβ, α² − β²)`, with
`α = 2·10⁷/(10¹⁴ + 1)` and `β = (10¹⁴ − 1)/(10¹⁴ + 1)`, is a unit vector nearly but not
exactly opposite to `−g`.  The singular vector `(−1, 0, 0)` is a unit vector orthogonal to both
inputs, as the decomposition requires, and lies opposite to their cross product; with it
`imuInit` completes with an orientation that does not rotate `−g` onto `9.81·m/|m|` (it rotates
it onto the mirror image `9.81·(0, 2αβ, α² − β²)`). -/
theorem imuInit_alignment_mirrored :
    SqrtExact (⟨Real.sqrt, fun _ _ => ![-1, 0, 0], fun _ => Quat.identity, fun _ => 1,
        fun _ => 0, fun a _ => a⟩ : Deps ℝ)
      ∧ mean (List.map ImuData.acc [(⟨0, ![0,
          -(2 * (20000000 / 100000000000001) * (99999999999999 / 100000000000001)),
          20000000 / 100000000000001 * (20000000 / 100000000000001)
            - 99999999999999 / 100000000000001 * (99999999999999 / 100000000000001)],
          0⟩ : ImuData ℝ)]) ≠ 0
      ∧ SvdAxisNull (⟨Real.sqrt, fun _ _ => ![-1, 0, 0], fun _ => Quat.identity, fun _ => 1,
          fun _ => 0, fun a _ => a⟩ : Deps ℝ) ![0, 0, 981 / 100]
          (mean (List.map ImuData.acc [(⟨0, ![0,
            -(2 * (20000000 / 100000000000001) * (99999999999999 / 100000000000001)),
            20000000 / 100000000000001 * (20000000 / 100000000000001)
              - 99999999999999 / 100000000000001 * (99999999999999 / 100000000000001)],
            0⟩ : ImuData ℝ)]))
      ∧ ((ImuGpsFusion.construct (rawFilter ℝ)).imuInit
            (⟨Real.sqrt, fun _ _ => ![-1, 0, 0], fun _ => Quat.identity, fun _ => 1,
              fun _ => 0, fun a _ => a⟩ : Deps ℝ)
            [⟨0, ![0,
              -(2 * (20000000 / 100000000000001) * (99999999999999 / 100000000000001)),
              20000000 / 100000000000001 * (20000000 / 100000000000001)
                - 99999999999999 / 100000000000001 * (99999999999999 / 100000000000001)],
              0⟩]).no_state_.q.rotate ![0, 0, 981 / 100]
          ≠ fun i => 981 / 100 * (mean (List.map ImuData.acc [(⟨0, ![0,
              -(2 * (20000000 / 100000000000001) * (99999999999999 / 100000000000001)),
              20000000 / 100000000000001 * (20000000 / 100000000000001)
                - 99999999999999 / 100000000000001 * (99999999999999 / 100000000000001)],
              0⟩ : ImuData ℝ)]) i
            / Real.sqrt (dot
                (mean (List.map ImuData.acc [(⟨0, ![0,
                  -(2 * (20000000 / 100000000000001) * (99999999999999 / 100000000000001)),
                  20000000 / 100000000000001 * (20000000 / 100000000000001)
                    - 99999999999999 / 100000000000001 * (99999999999999 / 100000000000001)],
                  0⟩ : ImuData ℝ)]))
                (mean (List.map ImuData.acc [(⟨0, ![0,
                  -(2 * (20000000 / 100000000000001) * (99999999999999 / 100000000000001)),
                  20000000 / 100000000000001 * (20000000 / 100000000000001)
                    - 99999999999999 / 100000000000001 * (99999999999999 / 100000000000001)],
                  0⟩ : ImuData ℝ)])))) := by
  have hsq : SqrtExact (⟨Real.sqrt, fun _ _ => ![-1, 0, 0], fun _ => Quat.identity, fun _ => 1,
      fun _ => 0, fun a _ => a⟩ : Deps ℝ) :=
    fun x hx => ⟨Real.sqrt_nonneg x, Real.mul_self_sqrt hx⟩
  have hab : (20000000 / 100000000000001 : ℝ) * (20000000 / 100000000000001)
      + 99999999999999 / 100000000000001 * (99999999999999 / 100000000000001) = 1 := by
    norm_num
  have hmean : mean (List.map ImuData.acc [(⟨0, ![0,
      -(2 * (20000000 / 100000000000001) * (99999999999999 / 100000000000001)),
      20000000 / 100000000000001 * (20000000 / 100000000000001)
        - 99999999999999 / 100000000000001 * (99999999999999 / 100000000000001)],
      0⟩ : ImuData ℝ)])
      = ![0, -(2 * (20000000 / 100000000000001) * (99999999999999 / 100000000000001)),
        20000000 / 100000000000001 * (20000000 / 100000000000001)
          - 99999999999999 / 100000000000001 * (99999999999999 / 100000000000001)] := by
    funext i
    simp only [mean, List.map_cons, List.map_nil, List.sum_cons, List.sum_nil, add_zero,
      List.length_cons, List.length_nil, zero_add, Nat.cast_one, div_one]
  rw [hmean]
  obtain ⟨hd, hn⟩ := sliver_normalized _ hsq (20000000 / 100000000000001 : ℝ)
    (99999999999999 / 100000000000001) hab
  have hrot := fromTwoVectors_mirrored _ hsq (20000000 / 100000000000001 : ℝ)
    (99999999999999 / 100000000000001) (by norm_num) (by norm_num) hab
    (by norm_num [dummy_precision]) rfl
  have hm : (![0, -(2 * (20000000 / 100000000000001) * (99999999999999 / 100000000000001)),
      20000000 / 100000000000001 * (20000000 / 100000000000001)
        - 99999999999999 / 100000000000001 * (99999999999999 / 100000000000001)] : Vec3 ℝ)
      ≠ 0 := by
    intro h
    have h1 := congrFun h 1
    simp at h1
  refine ⟨hsq, hm, ?_, ?_⟩
  · simp only [SvdAxisNull]
    rw [normalized_gravity _ hsq.ofSquares, hn]
    intro _
    simp [dot]
  · obtain ⟨h1, _⟩ := imuInit_fields (⟨Real.sqrt, fun _ _ => ![-1, 0, 0],
      fun _ => Quat.identity, fun _ => 1, fun _ => 0, fun a _ => a⟩ : Deps ℝ)
      (ImuGpsFusion.construct (rawFilter ℝ)) [⟨0, ![0,
        -(2 * (20000000 / 100000000000001) * (99999999999999 / 100000000000001)),
        20000000 / 100000000000001 * (20000000 / 100000000000001)
          - 99999999999999 / 100000000000001 * (99999999999999 / 100000000000001)], 0⟩]
    have hgv : (ImuGpsFusion.construct (rawFilter ℝ)).g_ = ![0, 0, -(981 / 100)] := rfl
    rw [hmean, hgv, neg_gravity] at h1
    rw [h1]
    show (fromTwoVectors _ _ _).rotate _ ≠ _
    rw [hrot, hd, Real.sqrt_one]
    intro h
    have h1 := congrFun h 1
    simp at h1
    norm_num at h1

/-- Witness for C9 over `ℚ`: two vertical samples. -/
theorem imuInit_vertical_witness :
    ((ImuGpsFusion.construct (rawFilter ℚ)).imuInit demoDeps
      [⟨0, ![0, 0, 981 / 100], 0⟩, ⟨1, ![0, 0, 981 / 100], 0⟩]).no_state_.q = Quat.identity :=
  (imuInit_vertical demoDeps (fun x hx => by simp [demoDeps, Rat.sqrt_eq, abs_of_nonneg hx])
    (ImuGpsFusion.construct (rawFilter ℚ)) rfl
    [⟨0, ![0, 0, 981 / 100], 0⟩, ⟨1, ![0, 0, 981 / 100], 0⟩] (by simp)
    (by
      intro s hs
      simp only [List.mem_cons, List.mem_singleton, List.not_mem_nil, or_false] at hs
      rcases hs with rfl | rfl <;> exact ⟨rfl, rfl⟩)).1.2.2

/-- C6 (code at the failing input): `imuInit` has no emptiness check.  On the empty batch it
completes, and overwrites the gyroscope bias `(1, 2, 3)` of the nominal and of the accepted
state with the zero-count mean `0 / 0` (zero in field arithmetic, NaN in IEEE arithmetic). -/
theorem imuInit_empty_batch :
    (((ImuGpsFusion.construct (rawFilter ℚ)).recoverState
        ⟨0, Quat.identity, 0, 0, ![1, 2, 3]⟩).imuInit demoDeps []).no_state_.w_b
        = (fun _ => 0 / ((0 : ℕ) : ℚ))
      ∧ (((ImuGpsFusion.construct (rawFilter ℚ)).recoverState
          ⟨0, Quat.identity, 0, 0, ![1, 2, 3]⟩).imuInit demoDeps []).no_state_.w_b
          ≠ ((ImuGpsFusion.construct (rawFilter ℚ)).recoverState
              ⟨0, Quat.identity, 0, 0, ![1, 2, 3]⟩).no_state_.w_b
      ∧ (((ImuGpsFusion.construct (rawFilter ℚ)).recoverState
          ⟨0, Quat.identity, 0, 0, ![1, 2, 3]⟩).imuInit demoDeps []).ac_state_.w_b
          ≠ ((ImuGpsFusion.construct (rawFilter ℚ)).recoverState
              ⟨0, Quat.identity, 0, 0, ![1, 2, 3]⟩).ac_state_.w_b := by
  have h : (((ImuGpsFusion.construct (rawFilter ℚ)).recoverState
      ⟨0, Quat.identity, 0, 0, ![1, 2, 3]⟩).imuInit demoDeps []).no_state_.w_b
      = (fun _ => 0 / ((0 : ℕ) : ℚ)) := by
    funext i
    simp [ImuGpsFusion.imuInit, sumVec]
  have hne : (((ImuGpsFusion.construct (rawFilter ℚ)).recoverState
      ⟨0, Quat.identity, 0, 0, ![1, 2, 3]⟩).imuInit demoDeps []).no_state_.w_b
      ≠ ((ImuGpsFusion.construct (rawFilter ℚ)).recoverState
          ⟨0, Quat.identity, 0, 0, ![1, 2, 3]⟩).no_state_.w_b := by
    rw [h]
    intro e
    have := congrFun e 0
    simp [ImuGpsFusion.recoverState] at this
  exact ⟨h, hne, hne⟩

/-- C7 (counterexample): with `t2 − t1 = −1` on the freshly constructed filter,
`updateNominalState` and `imuPredict` complete and move the vertical position from `0` to
`−4.905`: the nominal state is modified, the step is integrated backwards. -/
theorem imuPredict_backward_dt :
    (⟨0, 0, 0⟩ : ImuData ℚ).stamp - (⟨1, 0, 0⟩ : ImuData ℚ).stamp < 0
      ∧ (ImuGpsFusion.construct (rawFilter ℚ)).no_state_.p 2 = 0
      ∧ ((ImuGpsFusion.construct (rawFilter ℚ)).updateNominalState demoDeps
          ⟨1, 0, 0⟩ ⟨0, 0, 0⟩).no_state_.p 2 = -(981 / 200)
      ∧ ((ImuGpsFusion.construct (rawFilter ℚ)).imuPredict demoDeps
          ⟨1, 0, 0⟩ ⟨0, 0, 0⟩).no_state_.p 2 = -(981 / 200) := by
  have h : ((ImuGpsFusion.construct (rawFilter ℚ)).updateNominalState demoDeps
      ⟨1, 0, 0⟩ ⟨0, 0, 0⟩).no_state_.p 2 = -(981 / 200) := by
    simp [ImuGpsFusion.updateNominalState, ImuGpsFusion.construct, rawFilter,
      Quat.toRotationMatrix, Quat.identity, Matrix.mulVec, Matrix.dotProduct,
      Fin.sum_univ_three]
    norm_num
  exact ⟨by norm_num, rfl, h, h⟩

/-- C7 (amended): `updateNominalState` and `imuPredict` do not check the time delta.  For two
samples with `dt = t2 − t1 ≤ 0` they apply the same update as for a positive `dt`: position
`p + v·dt + ½·(R(q)·(ā − a_b) + g)·dt²`, velocity `v + (R(q)·(ā − a_b) + g)·dt`, orientation
`q ⊗ Exp((ω̄ − w_b)·dt)`, biases and accepted state unchanged, and for `imuPredict` covariance
`F·P·Fᵗ + Fi·Q·Fiᵗ` with `Q` built for that `dt`. -/
theorem imuPredict_nonpositive_dt (d : Deps K) (f : ImuGpsFusion K) (s1 s2 : ImuData K)
    (hdt : s2.stamp - s1.stamp ≤ 0) :
    let dt := s2.stamp - s1.stamp
    let abar : Vec3 K := fun i => (s1.acc i + s2.acc i) / 2
    let wbar : Vec3 K := fun i => (s1.gyr i + s2.gyr i) / 2
    let x := f.no_state_
    let acc : Vec3 K := x.q.toRotationMatrix.mulVec (abar - x.a_b) + f.g_
    let y := (f.updateNominalState d s1 s2).no_state_
    let r := f.imuPredict d s1 s2
    (∀ i, y.p i = x.p i + x.v i * dt + 1 / 2 * acc i * dt ^ 2)
      ∧ (∀ i, y.v i = x.v i + acc i * dt)
      ∧ y.q = x.q.mul (d.getQuaFromAA (fun i => (wbar i - x.w_b i) * dt))
      ∧ y.a_b = x.a_b ∧ y.w_b = x.w_b
      ∧ r.no_state_ = y ∧ r.ac_state_ = f.ac_state_
      ∧ r.P_ = r.Fx_ * f.P_ * r.Fx_ᵀ + f.Fi_ * (f.updateQ dt).Qi_ * f.Fi_ᵀ := by
  intro dt abar wbar x acc y r
  have _ := hdt
  obtain ⟨h1, h2, h3, h4, h5⟩ := updateNominalState_general d f s1 s2
  exact ⟨h1, h2, h3, h4, h5, rfl, rfl, rfl⟩

/-- Witness for the amended C7: a step with `dt = −1`. -/
theorem imuPredict_nonpositive_dt_witness :
    ((ImuGpsFusion.construct (rawFilter ℚ)).imuPredict demoDeps ⟨1, ![0, 0, 1], 0⟩
        ⟨0, ![0, 0, 1], 0⟩).ac_state_ = (ImuGpsFusion.construct (rawFilter ℚ)).ac_state_ :=
  (imuPredict_nonpositive_dt demoDeps (ImuGpsFusion.construct (rawFilter ℚ))
    ⟨1, ![0, 0, 1], 0⟩ ⟨0, ![0, 0, 1], 0⟩ (by norm_num)).2.2.2.2.2.2.1

/-- C11: for two samples with equal timestamps (`dt = 0`), whatever their specific force and
angular rate, `updateNominalState` leaves the nominal state identical, and `imuPredict`
additionally leaves the covariance identical.  The helpers of `util.hpp` enter through the
spec's contracts: the exponential map of the zero vector is the identity quaternion, the
incremental rotation matrix of the zero vector is the identity matrix. -/
theorem zero_dt_identity (d : Deps K) (hE : ExpZero d) (hR : RotZero d) (f : ImuGpsFusion K)
    (s1 s2 : ImuData K) (hdt : s2.stamp = s1.stamp) :
    (f.updateNominalState d s1 s2).no_state_ = f.no_state_
      ∧ (f.imuPredict d s1 s2).no_state_ = f.no_state_
      ∧ (f.imuPredict d s1 s2).P_ = f.P_ :=
  ⟨updateNominalState_zero_dt d hE f s1 s2 hdt, (imuPredict_zero_dt d hE hR f s1 s2 hdt).1,
    (imuPredict_zero_dt d hE hR f s1 s2 hdt).2⟩

/-- Witness for C11: two samples stamped `1` with different readings, over `ℚ`. -/
theorem zero_dt_identity_witness :
    (((ImuGpsFusion.construct (rawFilter ℚ)).cfgImuVar 1 2 3 4).imuPredict demoDeps
        ⟨1, ![1, 2, 3], ![4, 5, 6]⟩ ⟨1, ![0, 1, 0], ![7, 8, 9]⟩).P_
      = ((ImuGpsFusion.construct (rawFilter ℚ)).cfgImuVar 1 2 3 4).P_ :=
  (zero_dt_identity demoDeps demoDeps_expZero demoDeps_rotZero
    ((ImuGpsFusion.construct (rawFilter ℚ)).cfgImuVar 1 2 3 4)
    ⟨1, ![1, 2, 3], ![4, 5, 6]⟩ ⟨1, ![0, 1, 0], ![7, 8, 9]⟩ rfl).2.2

/-- C12 (counterexample): the freshly constructed filter has the symmetric positive
semi-definite covariance `P = 0` and position `0`.  For the fix whose local-frame position is
`(1, 0, 0)` and covariance `ε·I`, the corrected position does not converge to the fix position
as `ε → 0⁺` (the gain is zero for every `ε`). -/
theorem correct_position_stuck :
    IsSymPSD (ImuGpsFusion.construct (rawFilter ℝ)).P_
      ∧ ¬ Filter.Tendsto
        (fun ε : ℝ => ((ImuGpsFusion.construct (rawFilter ℝ)).correct
          (⟨Real.sqrt, fun _ _ => ![1, 0, 0], fun _ => Quat.identity, fun _ => 1,
            fun _ => 0, fun a _ => a⟩ : Deps ℝ) ⟨0, ![1, 0, 0], ε • (1 : Mat3 ℝ)⟩).no_state_.p)
        (nhdsWithin 0 (Set.Ioi 0)) (nhds (![1, 0, 0] : Vec3 ℝ)) := by
  refine ⟨isSymPSD_zero, ?_⟩
  intro h
  have hfun : (fun ε : ℝ => ((ImuGpsFusion.construct (rawFilter ℝ)).correct
      (⟨Real.sqrt, fun _ _ => ![1, 0, 0], fun _ => Quat.identity, fun _ => 1,
        fun _ => 0, fun a _ => a⟩ : Deps ℝ) ⟨0, ![1, 0, 0], ε • (1 : Mat3 ℝ)⟩).no_state_.p)
      = fun _ : ℝ => (0 : Vec3 ℝ) := by
    funext ε
    rw [correct_position _ _ _ rfl]
    have hP : (ImuGpsFusion.construct (rawFilter ℝ)).P_ = 0 := rfl
    have hb : block3 (0 : Matrix (Fin 15) (Fin 15) ℝ) 0 0 (by omega) (by omega) = 0 := by
      ext i j
      simp [block3]
    have hp : (ImuGpsFusion.construct (rawFilter ℝ)).no_state_.p = 0 := rfl
    rw [hP, hb, hp]
    simp
  rw [hfun] at h
  have e := tendsto_nhds_unique h tendsto_const_nhds
  have e0 := congrFun e 0
  simp at e0

/-- C12 (amended): for every predicted nominal state and every predicted covariance whose
3×3 position block is invertible (for a symmetric positive semi-definite covariance: positive
definite), with the constructed observation selector, as the fix covariance `V = ε·I` tends to
zero (`ε → 0⁺`) the position produced by the correction step converges to the fix's
local-frame position. -/
theorem correct_position_tendsto (d : Deps ℝ) (f : ImuGpsFusion ℝ)
    (hHx : f.Hx_ = (ImuGpsFusion.construct f).Hx_) (t : ℝ) (data : Vec3 ℝ)
    (hdet : (block3 f.P_ 0 0 (by omega) (by omega)).det ≠ 0) :
    Filter.Tendsto (fun ε : ℝ => (f.correct d ⟨t, data, ε • (1 : Mat3 ℝ)⟩).no_state_.p)
      (nhdsWithin 0 (Set.Ioi 0)) (nhds (d.lla2enu data ![f.ref_lati_, f.ref_long_, f.ref_alti_])) := by
  have hfun : (fun ε : ℝ => (f.correct d ⟨t, data, ε • (1 : Mat3 ℝ)⟩).no_state_.p)
      = fun ε : ℝ => f.no_state_.p
        + (block3 f.P_ 0 0 (by omega) (by omega)
            * inverse3 (block3 f.P_ 0 0 (by omega) (by omega) + ε • (1 : Mat3 ℝ))).mulVec
          (d.lla2enu data ![f.ref_lati_, f.ref_long_, f.ref_alti_] - f.no_state_.p) :=
    funext fun ε => correct_position d f ⟨t, data, ε • (1 : Mat3 ℝ)⟩ hHx
  rw [hfun]
  generalize block3 f.P_ 0 0 (by omega) (by omega) = S at hdet ⊢
  generalize d.lla2enu data ![f.ref_lati_, f.ref_long_, f.ref_alti_] = z
  generalize f.no_state_.p = p
  apply tendsto_nhdsWithin_of_tendsto_nhds
  rw [tendsto_pi_nhds]
  intro i
  have key : Filter.Tendsto (fun ε : ℝ => p i
        + ∑ j, (∑ k, S i k * inverse3 (S + ε • (1 : Mat3 ℝ)) k j) * (z - p) j) (nhds 0)
      (nhds (p i + ∑ j, (∑ k, S i k * inverse3 S k j) * (z - p) j)) :=
    Filter.Tendsto.add tendsto_const_nhds (tendsto_finset_sum _ fun j _ =>
      Filter.Tendsto.mul (tendsto_finset_sum _ fun k _ =>
        Filter.Tendsto.mul tendsto_const_nhds (inverse3_entry_limit S hdet k j)) tendsto_const_nhds)
  have hz : z i = p i + ∑ j, (∑ k, S i k * inverse3 S k j) * (z - p) j := by
    have h1 : ∀ j, (∑ k, S i k * inverse3 S k j) = (1 : Mat3 ℝ) i j := by
      intro j
      rw [← Matrix.mul_apply, (inverse3_mul S hdet).2]
    simp only [h1, Matrix.one_apply, ite_mul, one_mul, zero_mul, Finset.sum_ite_eq,
      Finset.mem_univ, if_true, Pi.sub_apply]
    ring
  rw [hz]
  exact key

/-- Witness for the amended C12: covariance `P = I` over `ℝ`. -/
theorem correct_position_tendsto_witness :
    Filter.Tendsto
      (fun ε : ℝ => (({ ImuGpsFusion.construct (rawFilter ℝ) with P_ := 1 } : ImuGpsFusion ℝ).correct
        (⟨Real.sqrt, fun _ _ => ![1, 0, 0], fun _ => Quat.identity, fun _ => 1,
          fun _ => 0, fun a _ => a⟩ : Deps ℝ) ⟨0, ![1, 0, 0], ε • (1 : Mat3 ℝ)⟩).no_state_.p)
      (nhdsWithin 0 (Set.Ioi 0)) (nhds (![1, 0, 0] : Vec3 ℝ)) :=
  correct_position_tendsto
    (⟨Real.sqrt, fun _ _ => ![1, 0, 0], fun _ => Quat.identity, fun _ => 1,
      fun _ => 0, fun a _ => a⟩ : Deps ℝ)
    ({ ImuGpsFusion.construct (rawFilter ℝ) with P_ := 1 } : ImuGpsFusion ℝ) rfl 0 ![1, 0, 0]
    (by
      have h1 : block3 (1 : Matrix (Fin 15) (Fin 15) ℝ) 0 0 (by omega) (by omega) = 1 :=
        block3_one_diag 0 (by omega)
      show (block3 (1 : Matrix (Fin 15) (Fin 15) ℝ) 0 0 (by omega) (by omega)).det ≠ 0
      rw [h1]
      simp)

/-- C13: starting from a freshly constructed filter (`P = 0`, identity orientation, zero biases)
with non-negative configured noise parameters, feeding the at-rest samples (spacing `0.01`,
specific force `(0, 0, 9.81)`, zero angular rate) through `imuPredict`, the trace of the 3×3
position block of the covariance never decreases from one step to the next; this holds for every
number of calls `k`, in particular for the 99 calls made between 100 samples.  The exponential
map of the zero vector is taken to be the identity quaternion. -/
theorem at_rest_trace_monotone (d : Deps K) (hE : ExpZero d) (u : ImuGpsFusion K)
    (an wn aw ww : K) (han : 0 ≤ an) (hwn : 0 ≤ wn) (haw : 0 ≤ aw) (hww : 0 ≤ ww) (k : ℕ) :
    posTrace (feed d ((ImuGpsFusion.construct u).cfgImuVar an wn aw ww) atRestSample k).P_
      ≤ posTrace (feed d ((ImuGpsFusion.construct u).cfgImuVar an wn aw ww)
          atRestSample (k + 1)).P_ :=
  feed_posTrace_mono d hE ((ImuGpsFusion.construct u).cfgImuVar an wn aw ww) rfl rfl rfl
    ⟨han, hwn, haw, hww⟩ atRestSample (fun k => (atRestSample_spec k).1) (1 / 100)
    (by norm_num) (fun k => (atRestSample_spec k).2) k

/-- Witness for C13 over `ℚ`: the last of the 99 steps. -/
theorem at_rest_trace_monotone_witness :
    posTrace (feed demoDeps ((ImuGpsFusion.construct (rawFilter ℚ)).cfgImuVar 1 2 3 4)
        atRestSample 98).P_
      ≤ posTrace (feed demoDeps ((ImuGpsFusion.construct (rawFilter ℚ)).cfgImuVar 1 2 3 4)
          atRestSample 99).P_ :=
  at_rest_trace_monotone demoDeps demoDeps_expZero (rawFilter ℚ) 1 2 3 4 (by norm_num)
    (by norm_num) (by norm_num) (by norm_num) 98

/-- C14 (counterexample): on the freshly constructed filter over `ℚ`, after the predict loop
over the 100 at-rest samples the predicted position is exactly zero, and the fix at the
reference origin with covariance `diag(1, 1, 1)` leaves the position at zero: the corrected
position is not strictly closer to zero than the predicted one. -/
theorem at_rest_fix_not_closer :
    ∃ r, (ImuGpsFusion.construct (rawFilter ℚ)).gpsUpdate demoDeps ⟨99 / 100, 0, 1⟩
        ((List.range 100).map atRestSample) = Outcome.ok r
      ∧ ¬ (dot r.no_state_.p r.no_state_.p
            < dot ((ImuGpsFusion.construct (rawFilter ℚ)).predictLoop demoDeps
                ((List.range 100).map atRestSample)).no_state_.p
              ((ImuGpsFusion.construct (rawFilter ℚ)).predictLoop demoDeps
                ((List.range 100).map atRestSample)).no_state_.p) := by
  obtain ⟨h1, r, h2, h3, _⟩ := gpsUpdate_at_rest demoDeps demoDeps_expZero
    (ImuGpsFusion.construct (rawFilter ℚ)) rfl rfl ⟨99 / 100, 0, 1⟩
    (by simp [demoDeps, ImuGpsFusion.construct, rawFilter]) ((List.range 100).map atRestSample) (by simp) atRest_range
  have h4 : r.no_state_.p = 0 := h3
  refine ⟨r, h2, ?_⟩
  rw [h1, h4]
  simp [dot]

/-- C14 (amended): after the predict loop over at-rest samples (at least three, in particular
the 100 samples spaced `0.01`) from the constructed nominal state, the predicted position is
exactly zero, so for a fix located at the reference origin (converter output zero) the
innovation is zero and the corrected position, nominal and accepted, equals the predicted
position: the correction does not move the position away from the fix, and it does not move
it closer either. -/
theorem at_rest_fix_zero_innovation (d : Deps K) (hE : ExpZero d) (f : ImuGpsFusion K)
    (hs : f.no_state_ = freshState) (hg : f.g_ = ![0, 0, -(981 / 100)]) (gps : GpsData K)
    (hz : d.lla2enu gps.data ![f.ref_lati_, f.ref_long_, f.ref_alti_] = 0)
    (imus : List (ImuData K)) (hlen : 3 ≤ imus.length) (hall : ∀ s ∈ imus, AtRest s) :
    (f.predictLoop d imus).no_state_.p = 0
      ∧ ∃ r, f.gpsUpdate d gps imus = Outcome.ok r ∧ r.getNominalState.p = 0
          ∧ r.getState.p = 0 :=
  gpsUpdate_at_rest d hE f hs hg gps hz imus hlen hall

/-- Witness for the amended C14: the 100 at-rest samples on the constructed filter over `ℚ`. -/
theorem at_rest_fix_zero_innovation_witness :
    ((ImuGpsFusion.construct (rawFilter ℚ)).predictLoop demoDeps
        ((List.range 100).map atRestSample)).no_state_.p = 0 :=
  (at_rest_fix_zero_innovation demoDeps demoDeps_expZero (ImuGpsFusion.construct (rawFilter ℚ))
    rfl rfl ⟨99 / 100, 0, 1⟩ (by simp [demoDeps, ImuGpsFusion.construct, rawFilter]) ((List.range 100).map atRestSample)
    (by simp) atRest_range).1

/-- C15: with the selector `Hx` the constructor sets, the observation matrix computed by
`updateH` as `Hx·X_dx` is the 3×15 matrix `[I₃ | 0]` for every nominal orientation quaternion,
unit norm or not: velocity, orientation and bias columns are zero and the result does not
depend on the orientation. -/
theorem updateH_position_only (f : ImuGpsFusion K)
    (hHx : f.Hx_ = (ImuGpsFusion.construct f).Hx_) (q : Quat K) :
    (({ f with no_state_ := { f.no_state_ with q := q } } : ImuGpsFusion K).updateH).H_
        = (fun i j => if j.val = i.val then 1 else 0)
      ∧ f.updateH.H_ = (fun i j => if j.val = i.val then 1 else 0) :=
  ⟨updateH_H _ hHx, updateH_H f hHx⟩

/-- Witness for C15: the constructed filter over `ℚ` with a non-unit orientation. -/
theorem updateH_position_only_witness :
    (({ ImuGpsFusion.construct (rawFilter ℚ) with
        no_state_ := { (ImuGpsFusion.construct (rawFilter ℚ)).no_state_ with
          q := ⟨2, 3, 5, 7⟩ } } : ImuGpsFusion ℚ).updateH).H_
      = (fun i j => if j.val = i.val then 1 else 0) :=
  (updateH_position_only (ImuGpsFusion.construct (rawFilter ℚ)) rfl ⟨2, 3, 5, 7⟩).1

/-- C16: for every nominal state, sample `(a, ω)` and `dt`, the 3×3 blocks of the matrix built
by `calcF` are those of the block table: identity on the diagonal except the
orientation-orientation block `getRotFromAA((ω − w_b)·dt)`, position←velocity `I·dt`,
velocity←orientation `−R(q)·[a − a_b]×·dt`, velocity←accel-bias `−R(q)·dt`,
orientation←gyro-bias `−I·dt`, every other block zero; the two bias rows are those of the
identity. -/
theorem calcF_structure (d : Deps K) (f : ImuGpsFusion K) (s : ImuData K) (dt : K)
    (bi bj : Fin 5) :
    block3 (f.calcF d s dt).Fx_ (3 * bi.val) (3 * bj.val) (by omega) (by omega)
      = transitionBlocks f.no_state_.q.toRotationMatrix
          (d.vectorToSkewSymmetric (s.acc - f.no_state_.a_b))
          (d.getRotFromAA (dt • (s.gyr - f.no_state_.w_b))) dt bi.val bj.val :=
  calcF_blocks d f s dt bi.val bj.val bi.isLt bj.isLt

/-- C17 (counterexample): after `cfgImuVar(2, 3, 5, 7)` and `updateQ(1)` the first entry of the
process-noise covariance is `2 = sigma_an·dt²`, not `4 = sigma_an²·dt²`. -/
theorem updateQ_not_squared :
    (((rawFilter ℚ).cfgImuVar 2 3 5 7).updateQ 1).Qi_ 0 0 = 2
      ∧ (((rawFilter ℚ).cfgImuVar 2 3 5 7).updateQ 1).Qi_ 0 0 ≠ 2 ^ 2 * 1 ^ 2 := by
  have h : (((rawFilter ℚ).cfgImuVar 2 3 5 7).updateQ 1).Qi_ 0 0 = 2 := by
    rw [updateQ_Qi]
    simp [ImuGpsFusion.cfgImuVar]
  rw [h]
  norm_num

/-- C17 (amended): after `cfgImuVar(sigma_an, sigma_wn, sigma_aw, sigma_ww)`, for every `dt`
the process-noise covariance built by `updateQ` is diagonal with the four consecutive 3-blocks
`sigma_an·dt²·I₃`, `sigma_wn·dt²·I₃`, `sigma_aw·dt·I₃`, `sigma_ww·dt·I₃`: the four values passed
to the setter are used as they are, not squared. -/
theorem updateQ_unsquared (f : ImuGpsFusion K) (sigma_an sigma_wn sigma_aw sigma_ww dt : K) :
    ((f.cfgImuVar sigma_an sigma_wn sigma_aw sigma_ww).updateQ dt).Qi_
      = diagonal (fun r : Fin 12 =>
          if r.val < 3 then sigma_an * dt ^ 2
          else if r.val < 6 then sigma_wn * dt ^ 2
          else if r.val < 9 then sigma_aw * dt
          else sigma_ww * dt) := by
  rw [updateQ_Qi]
  refine congrArg diagonal (funext fun r => ?_)
  simp only [ImuGpsFusion.cfgImuVar]
  split_ifs <;> ring

/-- C18: after `cfgImuVar(an, wn, aw, ww)` on a filter holding the constructed noise-input
mapping, for every `dt = t2 − t1` the noise term `Fi·Q·Fiᵗ` is the 15×15 matrix
`diag(0₃, an·dt²·I₃, wn·dt²·I₃, aw·dt·I₃, ww·dt·I₃)` and `imuPredict` stores `F·P·Fᵗ` plus that
matrix: the four values are used unsquared and no noise lands on the position slot. -/
theorem noise_term_unsquared (d : Deps K) (f : ImuGpsFusion K)
    (hFi : f.Fi_ = (ImuGpsFusion.construct f).Fi_) (an wn aw ww : K) (s1 s2 : ImuData K) :
    (f.cfgImuVar an wn aw ww).Fi_
        * ((f.cfgImuVar an wn aw ww).updateQ (s2.stamp - s1.stamp)).Qi_
        * (f.cfgImuVar an wn aw ww).Fi_ᵀ
        = diagonal (fun r : Fin 15 =>
            if r.val < 3 then 0
            else if r.val < 6 then an * (s2.stamp - s1.stamp) ^ 2
            else if r.val < 9 then wn * (s2.stamp - s1.stamp) ^ 2
            else if r.val < 12 then aw * (s2.stamp - s1.stamp)
            else ww * (s2.stamp - s1.stamp))
      ∧ ((f.cfgImuVar an wn aw ww).imuPredict d s1 s2).P_
        = ((f.cfgImuVar an wn aw ww).imuPredict d s1 s2).Fx_ * f.P_
            * ((f.cfgImuVar an wn aw ww).imuPredict d s1 s2).Fx_ᵀ
          + diagonal (fun r : Fin 15 =>
            if r.val < 3 then 0
            else if r.val < 6 then an * (s2.stamp - s1.stamp) ^ 2
            else if r.val < 9 then wn * (s2.stamp - s1.stamp) ^ 2
            else if r.val < 12 then aw * (s2.stamp - s1.stamp)
            else ww * (s2.stamp - s1.stamp)) := by
  have h : (f.cfgImuVar an wn aw ww).Fi_
      * ((f.cfgImuVar an wn aw ww).updateQ (s2.stamp - s1.stamp)).Qi_
      * (f.cfgImuVar an wn aw ww).Fi_ᵀ
      = diagonal (fun r : Fin 15 =>
          if r.val < 3 then 0
          else if r.val < 6 then an * (s2.stamp - s1.stamp) ^ 2
          else if r.val < 9 then wn * (s2.stamp - s1.stamp) ^ 2
          else if r.val < 12 then aw * (s2.stamp - s1.stamp)
          else ww * (s2.stamp - s1.stamp)) := by
    rw [noise_term f (f.cfgImuVar an wn aw ww) hFi]
    refine congrArg diagonal (funext fun r => ?_)
    simp only [ImuGpsFusion.cfgImuVar]
    split_ifs <;> ring
  refine ⟨h, ?_⟩
  rw [imuPredict_P, h]
  rfl

/-- Witness for C18: the constructed filter over `ℚ`, a step of `dt = 1/2`. -/
theorem noise_term_unsquared_witness :
    ((ImuGpsFusion.construct (rawFilter ℚ)).cfgImuVar 2 3 5 7).Fi_
        * (((ImuGpsFusion.construct (rawFilter ℚ)).cfgImuVar 2 3 5 7).updateQ
            ((⟨1 / 2, 0, 0⟩ : ImuData ℚ).stamp - (⟨0, 0, 0⟩ : ImuData ℚ).stamp)).Qi_
        * ((ImuGpsFusion.construct (rawFilter ℚ)).cfgImuVar 2 3 5 7).Fi_ᵀ
      = diagonal (fun r : Fin 15 =>
          if r.val < 3 then 0
          else if r.val < 6 then 2 * ((⟨1 / 2, 0, 0⟩ : ImuData ℚ).stamp
            - (⟨0, 0, 0⟩ : ImuData ℚ).stamp) ^ 2
          else if r.val < 9 then 3 * ((⟨1 / 2, 0, 0⟩ : ImuData ℚ).stamp
            - (⟨0, 0, 0⟩ : ImuData ℚ).stamp) ^ 2
          else if r.val < 12 then 5 * ((⟨1 / 2, 0, 0⟩ : ImuData ℚ).stamp
            - (⟨0, 0, 0⟩ : ImuData ℚ).stamp)
          else 7 * ((⟨1 / 2, 0, 0⟩ : ImuData ℚ).stamp - (⟨0, 0, 0⟩ : ImuData ℚ).stamp)) :=
  (noise_term_unsquared demoDeps (ImuGpsFusion.construct (rawFilter ℚ)) rfl 2 3 5 7
    ⟨0, 0, 0⟩ ⟨1 / 2, 0, 0⟩).1

/-- C19: for every predicted covariance `P` and fix covariance `V` with invertible innovation
covariance `H·P·Hᵗ + V`, the covariance `gpsUpdate` stores is the Joseph form
`(I−KH)·P·(I−KH)ᵗ + K·V·Kᵗ` with `K = P·Hᵗ·(H·P·Hᵗ + V)⁻¹`, and it equals the simplified update
`(I−KH)·P`; with the constructed selector (`H = [I₃ | 0]`) its position block is
`P_pp − P_pp·(P_pp + V)⁻¹·P_pp`. -/
theorem joseph_form_simplified (d : Deps K) (f : ImuGpsFusion K) (gps : GpsData K)
    (hS : (f.updateH.H_ * f.P_ * f.updateH.H_ᵀ + gps.cov).det ≠ 0) :
    (f.correct d gps).P_
        = (1 - f.P_ * f.updateH.H_ᵀ * inverse3 (f.updateH.H_ * f.P_ * f.updateH.H_ᵀ + gps.cov)
              * f.updateH.H_) * f.P_
            * (1 - f.P_ * f.updateH.H_ᵀ
              * inverse3 (f.updateH.H_ * f.P_ * f.updateH.H_ᵀ + gps.cov) * f.updateH.H_)ᵀ
          + f.P_ * f.updateH.H_ᵀ * inverse3 (f.updateH.H_ * f.P_ * f.updateH.H_ᵀ + gps.cov)
            * gps.cov
            * (f.P_ * f.updateH.H_ᵀ
              * inverse3 (f.updateH.H_ * f.P_ * f.updateH.H_ᵀ + gps.cov))ᵀ
      ∧ (f.correct d gps).P_
        = (1 - f.P_ * f.updateH.H_ᵀ * inverse3 (f.updateH.H_ * f.P_ * f.updateH.H_ᵀ + gps.cov)
              * f.updateH.H_) * f.P_
      ∧ (f.Hx_ = (ImuGpsFusion.construct f).Hx_ →
          block3 (f.correct d gps).P_ 0 0 (by omega) (by omega)
            = block3 f.P_ 0 0 (by omega) (by omega)
              - block3 f.P_ 0 0 (by omega) (by omega)
                * inverse3 (block3 f.P_ 0 0 (by omega) (by omega) + gps.cov)
                * block3 f.P_ 0 0 (by omega) (by omega)) := by
  have hJ : (f.correct d gps).P_
      = (1 - f.P_ * f.updateH.H_ᵀ * inverse3 (f.updateH.H_ * f.P_ * f.updateH.H_ᵀ + gps.cov)
            * f.updateH.H_) * f.P_
          * (1 - f.P_ * f.updateH.H_ᵀ
            * inverse3 (f.updateH.H_ * f.P_ * f.updateH.H_ᵀ + gps.cov) * f.updateH.H_)ᵀ
        + f.P_ * f.updateH.H_ᵀ * inverse3 (f.updateH.H_ * f.P_ * f.updateH.H_ᵀ + gps.cov)
          * gps.cov
          * (f.P_ * f.updateH.H_ᵀ
            * inverse3 (f.updateH.H_ * f.P_ * f.updateH.H_ᵀ + gps.cov))ᵀ := rfl
  have hE := joseph_eq_simplified f.P_ f.updateH.H_ gps.cov hS
  refine ⟨hJ, hJ.trans hE, ?_⟩
  intro hHx
  rw [hJ.trans hE, updateH_selectPosition f hHx, innovation_selectPosition]
  exact simplified_position_block f.P_ _

/-- Witness for C19: the constructed filter over `ℚ` and a fix with covariance `I`. -/
theorem joseph_form_simplified_witness :
    ((ImuGpsFusion.construct (rawFilter ℚ)).correct demoDeps ⟨0, 0, 1⟩).P_
      = (1 - (ImuGpsFusion.construct (rawFilter ℚ)).P_
            * (ImuGpsFusion.construct (rawFilter ℚ)).updateH.H_ᵀ
            * inverse3 ((ImuGpsFusion.construct (rawFilter ℚ)).updateH.H_
                * (ImuGpsFusion.construct (rawFilter ℚ)).P_
                * (ImuGpsFusion.construct (rawFilter ℚ)).updateH.H_ᵀ + (⟨0, 0, 1⟩ : GpsData ℚ).cov)
            * (ImuGpsFusion.construct (rawFilter ℚ)).updateH.H_)
          * (ImuGpsFusion.construct (rawFilter ℚ)).P_ :=
  (joseph_form_simplified demoDeps (ImuGpsFusion.construct (rawFilter ℚ)) ⟨0, 0, 1⟩
    (by
      have hP : (ImuGpsFusion.construct (rawFilter ℚ)).P_ = 0 := rfl
      rw [hP]
      simp)).2.1

/-- C20 (code at the failing input): two identical stationary samples with the tilted specific
force `(24, 0, 7)` and rate `(1, 2, 3)`.  After `imuInit` on that batch the velocity is zero,
and one `updateNominalState` step over the same two samples (`dt = 1`) changes its first
component to `82404/15625`: the bias-corrected sample does not cancel gravity. -/
theorem imuInit_tilt_residual :
    (((ImuGpsFusion.construct (rawFilter ℚ)).imuInit demoDeps
        [⟨0, ![24, 0, 7], ![1, 2, 3]⟩, ⟨1, ![24, 0, 7], ![1, 2, 3]⟩]).updateNominalState
        demoDeps ⟨0, ![24, 0, 7], ![1, 2, 3]⟩ ⟨1, ![24, 0, 7], ![1, 2, 3]⟩).no_state_.v 0
        = 82404 / 15625
      ∧ ((ImuGpsFusion.construct (rawFilter ℚ)).imuInit demoDeps
          [⟨0, ![24, 0, 7], ![1, 2, 3]⟩, ⟨1, ![24, 0, 7], ![1, 2, 3]⟩]).no_state_.v 0 = 0 := by
  obtain ⟨h1, _⟩ := imuInit_fields demoDeps (ImuGpsFusion.construct (rawFilter ℚ))
    [⟨0, ![24, 0, 7], ![1, 2, 3]⟩, ⟨1, ![24, 0, 7], ![1, 2, 3]⟩]
  have hm : mean (List.map ImuData.acc
      [(⟨0, ![24, 0, 7], ![1, 2, 3]⟩ : ImuData ℚ), ⟨1, ![24, 0, 7], ![1, 2, 3]⟩])
      = ![24, 0, 7] := by
    apply mean_const _ _ (by simp)
    intro x hx
    simp only [List.map_cons, List.map_nil, List.mem_cons, List.mem_singleton,
      List.not_mem_nil, or_false, or_self] at hx
    exact hx
  have hgf : (ImuGpsFusion.construct (rawFilter ℚ)).g_ = ![0, 0, -(981 / 100)] := rfl
  rw [hm, hgf, neg_gravity, fromTwoVectors_tilt] at h1
  have hg2 : ((ImuGpsFusion.construct (rawFilter ℚ)).imuInit demoDeps
      [⟨0, ![24, 0, 7], ![1, 2, 3]⟩, ⟨1, ![24, 0, 7], ![1, 2, 3]⟩]).g_
      = ![0, 0, -(981 / 100)] := rfl
  have hab : (⟨4 / 5, 0, 3 / 5, 0⟩ : Quat ℚ).rotate ![0, 0, -(981 / 100)] + ![24, 0, 7]
      = ![9114 / 625, 0, 10633 / 2500] := by
    funext i
    fin_cases i <;> simp [Quat.rotate, Quat.vec, cross] <;> norm_num
  have hR : (⟨4 / 5, 0, 3 / 5, 0⟩ : Quat ℚ).toRotationMatrix
      = !![7 / 25, 0, 24 / 25; 0, 1, 0; -(24 / 25), 0, 7 / 25] := by
    ext i j
    fin_cases i <;> fin_cases j <;> simp [Quat.toRotationMatrix] <;> norm_num
  rw [hab] at h1
  constructor
  · have hv := (updateNominalState_general demoDeps
      ((ImuGpsFusion.construct (rawFilter ℚ)).imuInit demoDeps
        [⟨0, ![24, 0, 7], ![1, 2, 3]⟩, ⟨1, ![24, 0, 7], ![1, 2, 3]⟩])
      ⟨0, ![24, 0, 7], ![1, 2, 3]⟩ ⟨1, ![24, 0, 7], ![1, 2, 3]⟩).2.1 0
    rw [hv, hg2, h1]
    simp only [hR, Pi.add_apply, Pi.sub_apply, Matrix.mulVec, Matrix.dotProduct,
      Fin.sum_univ_three]
    simp [ImuGpsFusion.construct]
    norm_num
  · rw [h1]
    rfl

end Claims

section Recover

/-- C10: `recoverState(S)` followed by `getState` and by `getNominalState` returns `S`, and the
covariance is unchanged. -/
theorem recoverState_roundtrip {K : Type} (f : ImuGpsFusion K) (S : State K) :
    (f.recoverState S).getState = S ∧ (f.recoverState S).getNominalState = S
      ∧ (f.recoverState S).P_ = f.P_ :=
  ⟨rfl, rfl, rfl⟩

end Recover

end Fusion
